import Mathlib

/-!
Verification of the layered-graph-drawing core of the `trellis` repository.

The repository stores a directed graph as a `RampTable<V>` (CSR form: an
`index` offset array plus a flat `values` array).  Under the ramp-table
invariants (`index[0] == 0`, `index` non-decreasing, `index[num_keys] ==
values.len()`), that representation is in bijection with the list of
per-key slices, and every algorithm in the core accesses a graph only
through `edges_from` / `iter_from_edges` / `iter_edges_flattened`, i.e.
through those slices.  We therefore embed `Graph` as the list of per-vertex
out-neighbor lists; `Vec<bool>` tables indexed by vertex are embedded as
the `Finset` of indices holding `true`.
-/

namespace Trellis

/-- Embedding of `Graph` (src/src/graph.rs, src/trellis/src/graph.rs):
`adj` holds, for each vertex `0 ≤ v < num_verts`, its ordered list of
out-neighbors (`edges_from(v)`, the per-key slice of the backing ramp table). -/
structure Graph where
  adj : List (List Nat)
deriving Repr, DecidableEq

/-- `Graph::num_verts` (= `edges.num_keys()`). -/
def Graph.numVerts (g : Graph) : Nat := g.adj.length

/-- `Graph::edges_from(v)` (out-neighbor slice; out of range gives `[]`,
matching a ramp table with no entry — the Rust code would panic there and
never does so on well-formed input). -/
def Graph.edgesFrom (g : Graph) (v : Nat) : List Nat := g.adj.getD v []

/-- `Graph::num_edges` (= `edges.num_values()`). -/
def Graph.numEdges (g : Graph) : Nat := (g.adj.map List.length).sum

/-- `Graph::iter_edges_flattened`: every `(from, to)` pair, in `from`-ascending
then insertion order. -/
def Graph.flatEdges (g : Graph) : List (Nat × Nat) :=
  (g.adj.enum.map (fun p => p.2.map (fun t => (p.1, t)))).flatten

/-- `assert_graph_is_well_formed`: every stored destination index is in range. -/
def Graph.wellFormed (g : Graph) : Prop :=
  ∀ l ∈ g.adj, ∀ t ∈ l, t < g.adj.length

instance (g : Graph) : Decidable g.wellFormed := by
  unfold Graph.wellFormed; infer_instance

/-- The graph contains the directed edge `f -> t`. -/
def Graph.hasEdge (g : Graph) (f t : Nat) : Prop := t ∈ g.edgesFrom f

instance (g : Graph) (f t : Nat) : Decidable (g.hasEdge f t) := by
  unfold Graph.hasEdge; infer_instance

/-- Vertex `v` is incident to at least one edge (non-isolated, "degenerate"
vertices in the Rust comments are the non-incident ones). -/
def Graph.incident (g : Graph) (v : Nat) : Prop :=
  (∃ t, g.hasEdge v t) ∨ (∃ f, g.hasEdge f v)

/-- The graph contains a directed cycle: a chain of edges from `v` back to `v`
(`p = []` is a self-loop `v -> v`). -/
def Graph.hasCycle (g : Graph) : Prop :=
  ∃ v p, List.Chain (g.hasEdge) v (p ++ [v])

/-- `Error` (crate error enum; the only recoverable error kind, produced by
cycle detection in `topo_sort_reverse`). -/
inductive Error where
  | FoundCycle
deriving Repr, DecidableEq

/-! ## Topological sort (src/src/topo_sort.rs) -/

/-- Mutable state of `topo_sort_reverse`: the `visited` bool table, the
`in_work_set` bool table and the `topo_order` output vector. -/
structure TopoState where
  visited : Finset Nat
  inWork : Finset Nat
  order : List Nat
deriving DecidableEq

/-- The inner explicit-stack DFS loop of `topo_sort_reverse`
(src/src/topo_sort.rs lines 90-137).  `v` is the current vertex, `vEdges`
the not-yet-consumed part of its out-edge iterator, `stack` the work stack
(top at the head, each frame a suspended `(vertex, remaining-edge-iterator)`).
The Rust loop needs no fuel; we add a fuel argument to make the recursion
structural and prove separately (`dfsLoop_isSome`) that the fuel chosen by
`topo_sort_reverse` can never run out. -/
def dfsLoop (g : Graph) : Nat → Nat → List Nat → List (Nat × List Nat) →
    TopoState → Option (Except Error TopoState)
  | 0, _, _, _, _ => none
  | fuel + 1, v, vEdges, stack, s =>
    match vEdges with
    | nextV :: rest =>
      if nextV ∈ s.inWork then
        -- We have found a cycle.
        some (.error .FoundCycle)
      else if nextV ∈ s.visited then
        -- already checked the subgraph at nextV
        dfsLoop g fuel v rest stack s
      else
        -- descend into this forward edge
        dfsLoop g fuel nextV (g.edgesFrom nextV) ((v, rest) :: stack)
          { s with inWork := insert nextV s.inWork }
    | [] =>
      -- done with the subgraph under v: emit it and pop the stack
      let s' : TopoState :=
        { visited := insert v s.visited
          inWork := s.inWork.erase v
          order := s.order ++ [v] }
      match stack with
      | (pv, pEdges) :: stack' => dfsLoop g fuel pv pEdges stack' s'
      | [] => some (.ok s')

/-- Fuel that `topo_sort_reverse` hands to each inner DFS run; shown
sufficient in `dfsLoop_isSome_of_measure`. -/
def fuelBound (g : Graph) : Nat := 2 * g.numVerts + 3 * g.numEdges + 1

/-- The outer loop of `topo_sort_reverse`: iterate `iter_from_edges`
(vertices with their out-edge slices, in vertex order), skipping vertices
already visited and vertices with no out-edges, and run the DFS from each
remaining one. -/
def topoGo (g : Graph) : List (Nat × List Nat) → TopoState →
    Option (Except Error TopoState)
  | [], s => some (.ok s)
  | (source, sourceTos) :: rest, s =>
    if source ∈ s.visited then topoGo g rest s
    else if sourceTos = [] then
      -- don't report isolated verts
      topoGo g rest s
    else
      match dfsLoop g (fuelBound g) source sourceTos []
          { s with inWork := insert source s.inWork } with
      | none => none
      | some (.error e) => some (.error e)
      | some (.ok s') => topoGo g rest s'

/-- `topo_sort_reverse(graph)`: sinks-to-sources order, or `FoundCycle`.
(The `none` branch is fuel exhaustion, proved unreachable.) -/
def topo_sort_reverse (g : Graph) : Except Error (List Nat) :=
  match topoGo g g.adj.enum ⟨∅, ∅, []⟩ with
  | some (.ok s) => .ok s.order
  | some (.error e) => .error e
  | none => .error .FoundCycle

/-- `topo_sort(graph)`: `topo_sort_reverse` with the result reversed. -/
def topo_sort (g : Graph) : Except Error (List Nat) :=
  (topo_sort_reverse g).map List.reverse

/-! ### Specification predicates and invariants for the DFS -/

/-- A list is a valid reverse-topological output: it was grown by appending,
and each appended vertex had all of its out-neighbors already present. -/
inductive OrderOk (g : Graph) : List Nat → Prop
  | nil : OrderOk g []
  | snoc {l : List Nat} {f : Nat} (h : OrderOk g l)
      (hf : ∀ t ∈ g.edgesFrom f, t ∈ l) : OrderOk g (l ++ [f])

/-- Invariant tying the pieces of `TopoState` together between DFS steps. -/
def StateInv (g : Graph) (s : TopoState) : Prop :=
  s.order.Nodup ∧
  (∀ w, w ∈ s.visited ↔ w ∈ s.order) ∧
  OrderOk g s.order ∧
  (∀ w ∈ s.order, w < g.numVerts ∧ g.incident w) ∧
  Disjoint s.visited s.inWork

/-- Invariant of the suspended work-stack frames: each frame `(w, r)` has
consumed a prefix `c ++ [child]` of `edges_from(w)` where `child` is the
vertex of the frame above (or the current vertex, for the top frame) and
every earlier consumed neighbor is already visited. -/
def StackOk (g : Graph) (visited : Finset Nat) :
    List (Nat × List Nat) → Nat → Prop
  | [], _ => True
  | (w, r) :: rest, child =>
      (∃ c, g.edgesFrom w = c ++ child :: r ∧ ∀ x ∈ c, x ∈ visited) ∧
      StackOk g visited rest w

/-- Full invariant of the inner DFS loop state. -/
def DfsInv (g : Graph) (v : Nat) (vEdges : List Nat)
    (stack : List (Nat × List Nat)) (s : TopoState) : Prop :=
  StateInv g s ∧
  s.inWork = insert v (stack.map Prod.fst).toFinset ∧
  (v ∉ stack.map Prod.fst ∧ (stack.map Prod.fst).Nodup) ∧
  StackOk g s.visited stack v ∧
  (∃ c, g.edgesFrom v = c ++ vEdges ∧ ∀ x ∈ c, x ∈ s.visited) ∧
  (∀ w ∈ s.inWork, w < g.numVerts ∧ g.incident w)

/-- All edge-iterator suffixes in the DFS state point inside the vertex range
(automatic for well-formed graphs; used by the fuel-sufficiency proof). -/
def SafeState (g : Graph) (vEdges : List Nat)
    (stack : List (Nat × List Nat)) : Prop :=
  (∀ t ∈ vEdges, t < g.numVerts) ∧
  ∀ f ∈ stack, ∀ t ∈ f.2, t < g.numVerts

/-- Weight of a vertex for the DFS termination measure. -/
def edgeWeight (g : Graph) (w : Nat) : Nat := 1 + (g.edgesFrom w).length

/-- Termination measure of the inner DFS loop: it strictly decreases at every
step, so it bounds the fuel needed. -/
def dfsMeasure (g : Graph) (vEdges : List Nat)
    (stack : List (Nat × List Nat)) (s : TopoState) : Nat :=
  vEdges.length + (stack.map (fun f => f.2.length)).sum + stack.length +
    2 * ((Finset.range g.numVerts).filter
      (fun w => w ∉ s.visited ∧ w ∉ s.inWork)).sum (edgeWeight g)

/-! ## Layer assignment (src/src/layering.rs) -/

/-- `LayerMap` (src/src/layering.rs): the number of layers (always ≥ 1) and
the per-vertex layer table `v_layer[vertex] = layer`. -/
structure LayerMap where
  num_layers : Nat
  v_layer : List Nat
deriving Repr, DecidableEq

/-- `Iterator::max`: `none` on an empty sequence, otherwise the maximum. -/
def listMax : List Nat → Option Nat
  | [] => none
  | x :: xs =>
    match listMax xs with
    | none => some x
    | some m => some (max x m)

/-- The layer computed for vertex `f` by one step of the layer-assignment
loop: `1 + max(v_layer[t] for t in edges_from(f))`, or `0` if `f` has no
out-edges. -/
def layerValue (g : Graph) (vl : List Nat) (f : Nat) : Nat :=
  match listMax ((g.edgesFrom f).map (fun t => vl.getD t 0)) with
  | some layerMax => layerMax + 1
  | none => 0

/-- One step of the layer-assignment loop: write `f`'s layer into `v_layer`. -/
def layerStep (g : Graph) (vl : List Nat) (f : Nat) : List Nat :=
  vl.set f (layerValue g vl f)

/-- The layer-assignment loop of `create_layer_map` (and the identical loop
at the start of the trellis crate's `create_proper_graph`): start from all
zeros and process the vertices in reverse-topological order. -/
def layerFold (g : Graph) (topo : List Nat) : List Nat :=
  topo.foldl (layerStep g) (List.replicate g.numVerts 0)

/-- `create_layer_map(graph)` (src/src/layering.rs lines 17-41). -/
def create_layer_map (g : Graph) : Except Error LayerMap :=
  (topo_sort_reverse g).map (fun topo =>
    let v_layer := layerFold g topo
    { num_layers := (listMax v_layer).getD 0 + 1
      v_layer := v_layer })

/-! ## Transpose (`Graph::transpose`, src/trellis/src/graph.rs; the same
code is `transpose_graph` in src/src/lib.rs) -/

/-- `!0u32`, the placeholder written into `t_values` before the scatter. -/
def PLACEHOLDER : Nat := 4294967295

/-- `all_values()` of the graph's ramp table (the flat destination array). -/
def Graph.allValues (g : Graph) : List Nat := g.adj.flatten

/-- The counting pass of `transpose`: starting from `nv + 1` zeros, do
`t_index[to + 1] += 1` for every destination in `all_values()`. -/
def countPass (nv : Nat) (values : List Nat) : List Nat :=
  values.foldl (fun ti t0 => ti.set (t0 + 1) (ti.getD (t0 + 1) 0 + 1))
    (List.replicate (nv + 1) 0)

/-- The in-place integration pass of `transpose`
(`sum += *ii; *ii = sum;`). -/
def integrate : List Nat → Nat → List Nat
  | [], _ => []
  | x :: xs, sum => (sum + x) :: integrate xs (sum + x)

/-- The scatter pass shared by `transpose` and the disjoint-subgraph
builder: for each `(key, value)` pair in order, write `value` into
`values[t_index[key] + counts[key]]` and bump `counts[key]` (the per-key
write cursor). -/
def scatterGo (tIndex : List Nat) :
    List (Nat × Nat) → List Nat × List Nat → List Nat × List Nat
  | [], st => st
  | (k, v) :: rest, st =>
    let c := st.1.getD k 0
    scatterGo tIndex rest (st.1.set k (c + 1), st.2.set (tIndex.getD k 0 + c) v)

/-- The `t_index` array of `transpose`: counting pass then integration. -/
def transposeIndex (g : Graph) : List Nat :=
  integrate (countPass g.numVerts g.allValues) 0

/-- The edges as `(key, value) = (to, from)` pairs, in the order the
scatter pass of `transpose` visits them. -/
def transposePairs (g : Graph) : List (Nat × Nat) :=
  g.flatEdges.map (fun e => (e.2, e.1))

/-- The `t_values` array of `transpose`: scatter every `from` into the
slice of its `to`, tracked by the per-vertex `counts` cursors. -/
def transposeValues (g : Graph) : List Nat :=
  (scatterGo (transposeIndex g) (transposePairs g)
    (List.replicate g.numVerts 0,
     List.replicate g.numEdges PLACEHOLDER)).2

/-- `Graph::transpose` (src/trellis/src/graph.rs lines 72-111): build the
in-degree offset array in two passes, then scatter every edge `(from, to)`
into the slice of `to`.  The resulting ramp table `(t_index, t_values)` is
read back into per-vertex slices. -/
def Graph.transpose (g : Graph) : Graph :=
  ⟨(List.range g.numVerts).map
    (fun v => ((transposeValues g).take ((transposeIndex g).getD (v + 1) 0)).drop
      ((transposeIndex g).getD v 0))⟩

/-- Number of pairs carrying key `k`. -/
def cntKey (pairs : List (Nat × Nat)) (k : Nat) : Nat :=
  (pairs.filter (fun p => p.1 = k)).length

/-- Number of pairs whose key is below `k` (the prefix-count shape of the
offset arrays built by `transpose` and the disjoint-subgraph builder). -/
def keysBelow (pairs : List (Nat × Nat)) (k : Nat) : Nat :=
  ((pairs.map Prod.fst).filter (fun x => x < k)).length

/-! ## Disjoint subgraphs (src/src/disjoint.rs) -/

/-- One edge of step 1 of `find_disjoint_subgraphs`: assign both endpoints
of each edge to a possibly-disjoint-subgraph id.  `v_graph` entries are
`Option Nat` (`NO_GRAPH = !0u32` is `none`); `graph_alias` records, for a
connection between two already-assigned ids, `alias[max] = min`. -/
def disjointStep (st : List (Option Nat) × List Nat) (e : Nat × Nat) :
    List (Option Nat) × List Nat :=
  match st.1.getD e.1 none, st.1.getD e.2 none with
  | none, none =>
    let newG := st.2.length
    (((st.1.set e.1 (some newG)).set e.2 (some newG)), st.2 ++ [newG])
  | none, some gTo => (st.1.set e.1 (some gTo), st.2)
  | some gFrom, none => (st.1.set e.2 (some gFrom), st.2)
  | some gFrom, some gTo =>
    if gFrom = gTo then st
    else (st.1, st.2.set (max gFrom gTo) (min gFrom gTo))

/-- Step 1 over all edges, in `iter_edges_flattened` order. -/
def disjointPhase1 (g : Graph) : List (Option Nat) × List Nat :=
  g.flatEdges.foldl disjointStep (List.replicate g.numVerts none, [])

/-- The chain-following loop of step 2 (`loop { next = alias[leader]; … }`);
each non-trivial step strictly decreases the id, so `i + 1` fuel suffices
for a chase starting at `i`. -/
def chase (al : List Nat) : Nat → Nat → Nat
  | 0, leader => leader
  | fuel + 1, leader =>
    let next := al.getD leader leader
    if next = leader then leader else chase al fuel next

/-- One iteration of step 2: resolve id `i` to its leader, compress
`alias[i]`, and give a fresh final number to ids that lead themselves. -/
def resolveStep (st : List Nat × List (Option Nat) × Nat) (i : Nat) :
    List Nat × List (Option Nat) × Nat :=
  let leader := chase st.1 (i + 1) i
  let al := st.1.set i leader
  if i = leader then (al, st.2.1.set i (some st.2.2), st.2.2 + 1)
  else (al, st.2.1, st.2.2)

/-- Step 2 over all provisional ids: returns the compressed `graph_alias`,
the `remap` table (provisional leader id → final subgraph number) and
`num_subgraphs`. -/
def resolveAll (alias0 : List Nat) : List Nat × List (Option Nat) × Nat :=
  (List.range alias0.length).foldl resolveStep
    (alias0, List.replicate alias0.length none, 0)

/-- Step 3: remap every assigned vertex to its final subgraph number. -/
def remapVGraph (vG : List (Option Nat)) (al : List Nat)
    (remap : List (Option Nat)) : List (Option Nat) :=
  vG.map (fun o => match o with
    | none => none
    | some pds => remap.getD (al.getD pds 0) none)

/-- The final `vertex -> subgraph number` table of `find_disjoint_subgraphs`. -/
def disjointVGraph (g : Graph) : List (Option Nat) :=
  remapVGraph (disjointPhase1 g).1 (resolveAll (disjointPhase1 g).2).1
    (resolveAll (disjointPhase1 g).2).2.1

/-- `num_subgraphs`. -/
def disjointNum (g : Graph) : Nat := (resolveAll (disjointPhase1 g).2).2.2

/-- Step 4: `verts_per_subgraph` (count vertices per final subgraph). -/
def vertsPerSubgraph (vG : List (Option Nat)) (num : Nat) : List Nat :=
  vG.foldl (fun counts o => match o with
    | none => counts
    | some gg => counts.set gg (counts.getD gg 0 + 1))
    (List.replicate num 0)

/-- The prefix-sum loop that builds `output_index` in step 5. -/
def prefixSums : List Nat → Nat → List Nat
  | [], s => [s]
  | c :: cs, s => s :: prefixSums cs (s + c)

/-- The `(key, value) = (subgraph, vertex)` pairs written by the scatter of
step 5, in ascending vertex order. -/
def disjointPairs (g : Graph) : List (Nat × Nat) :=
  (disjointVGraph g).enum.filterMap
    (fun p => p.2.map (fun gg => (gg, p.1)))

/-- `output_index`. -/
def disjointIndex (g : Graph) : List Nat :=
  prefixSums (vertsPerSubgraph (disjointVGraph g) (disjointNum g)) 0

/-- `output_values`: the scatter of step 5.  The Rust code keeps absolute
cursors (`output_pos`, a clone of `output_index`, incremented per write);
`scatterGo` tracks the same cursor as `output_index[k] + counts[k]`. -/
def disjointValues (g : Graph) : List Nat :=
  (scatterGo (disjointIndex g) (disjointPairs g)
    (List.replicate (disjointNum g) 0,
     List.replicate (disjointPairs g).length PLACEHOLDER)).2

/-- `DisjointSubgraphs`: the ramp table `G -> [V]`, read back as per-key
slices. -/
structure DisjointSubgraphs where
  subgraphs : List (List Nat)
deriving Repr, DecidableEq

/-- `find_disjoint_subgraphs(graph)` (src/src/disjoint.rs lines 10-168). -/
def find_disjoint_subgraphs (g : Graph) : DisjointSubgraphs :=
  ⟨(List.range (disjointNum g)).map
    (fun k => ((disjointValues g).take ((disjointIndex g).getD (k + 1) 0)).drop
      ((disjointIndex g).getD k 0))⟩

/-- One undirected-adjacency step: an edge in either direction. -/
def UndirAdj (g : Graph) (a b : Nat) : Prop :=
  g.hasEdge a b ∨ g.hasEdge b a

/-- Weak connectivity: reachability over edges treated as undirected. -/
def WeaklyConnected (g : Graph) : Nat → Nat → Prop :=
  Relation.ReflTransGen (UndirAdj g)

/-! ## Proper graph construction (src/trellis/src/layering.rs) -/

/-- One vertex of the layer-assignment loop of `create_proper_graph`
(src/trellis/src/layering.rs lines 84-96): the same layer computation as
`create_layer_map`, but additionally recording the
`layer_verts_builder.push(from_layer, from)` and updating `max_layer`.
State: `(v_layer, layer_verts pushes, max_layer)`. -/
def properLayerStep (g : Graph)
    (st : List Nat × List (Nat × Nat) × Nat) (f : Nat) :
    List Nat × List (Nat × Nat) × Nat :=
  (st.1.set f (layerValue g st.1 f),
   st.2.1 ++ [(layerValue g st.1 f, f)],
   max st.2.2 (layerValue g st.1 f))

/-- The layer-assignment loop of `create_proper_graph` over the
reverse-topological order. -/
def properLayerFold (g : Graph) (order : List Nat) :
    List Nat × List (Nat × Nat) × Nat :=
  order.foldl (properLayerStep g) (List.replicate g.numVerts 0, [], 0)

/-- The `while layer > to_layer` loop of the chain construction
(src/trellis/src/layering.rs lines 118-129), run for `n` iterations
starting at `layer` with current chain vertex `prev` and allocation
counter `nv`: each iteration allocates virtual vertex `nv`, pushes it into
`layer_verts` under `layer`, pushes the edge `(prev, nv)` into
`layer_edges` under `layer`, and continues one layer down.  Returns
`(layer_verts pushes, layer_edges pushes, (final prev_v, final
next_virt_v))`. -/
def chainSteps : Nat → Nat → Nat → Nat →
    List (Nat × Nat) × List (Nat × (Nat × Nat)) × Nat × Nat
  | 0, _, prev, nv => ([], [], prev, nv)
  | n + 1, layer, prev, nv =>
    let rest := chainSteps n (layer - 1) nv (nv + 1)
    ((layer, nv) :: rest.1, (layer, (prev, nv)) :: rest.2.1, rest.2.2)

/-- The edge loop of `create_proper_graph` (src/trellis/src/layering.rs
lines 110-132): for each flattened edge `(from, to)`, run the chain loop
for the `from_layer - 1 - to_layer` intermediate layers and then push the
closing edge `(prev_v, to)` into `layer_edges[to_layer]`.  Returns the
accumulated `layer_verts` pushes, `layer_edges` pushes and the final
`next_virt_v`. -/
def properEdgePhase (vl : List Nat) :
    List (Nat × Nat) → Nat →
    List (Nat × Nat) × List (Nat × (Nat × Nat)) × Nat
  | [], nv => ([], [], nv)
  | e :: es, nv =>
    let fl := vl.getD e.1 0
    let tl := vl.getD e.2 0
    let c := chainSteps (fl - 1 - tl) (fl - 1) e.1 nv
    let rest := properEdgePhase vl es c.2.2.2
    (c.1 ++ rest.1,
     (c.2.1 ++ [(tl, (c.2.2.1, e.2))]) ++ rest.2.1,
     rest.2.2)

/-- Specification-side description (following the claim's words, for
comparison with `properEdgePhase`) of the chain replacing one original
edge `f -> t` with `fl = layer f` and `tl = layer t`: one edge per crossed
layer, keys descending from `fl - 1` to `tl`, threading through the
freshly allocated virtual vertices `nv, nv + 1, …`; an edge with span 1
is the single unchanged pair `(tl, (f, t))`. -/
def chainSpec (f t fl tl nv : Nat) : List (Nat × (Nat × Nat)) :=
  ((List.range (fl - 1 - tl)).map (fun i =>
    (fl - 1 - i, ((if i = 0 then f else nv + i - 1), nv + i)))) ++
  [(tl, ((if fl - 1 - tl = 0 then f else nv + (fl - 1 - tl) - 1), t))]

/-- Specification-side description of the whole edge loop: the
concatenation of one `chainSpec` block per original edge, threading the
virtual-vertex counter. -/
def chainsSpec (vl : List Nat) : List (Nat × Nat) → Nat → List (Nat × (Nat × Nat))
  | [], _ => []
  | e :: es, nv =>
    chainSpec e.1 e.2 (vl.getD e.1 0) (vl.getD e.2 0) nv ++
      chainsSpec vl es (nv + (vl.getD e.1 0 - 1 - vl.getD e.2 0))

/-- The layer assigned to a proper-graph vertex: an original vertex
carries its `v_layer` entry, a virtual vertex the layer it was pushed into
`layer_verts` with (`vi` is the list of virtual pushes). -/
def properAssigned (g : Graph) (vl : List Nat) (vi : List (Nat × Nat))
    (L v : Nat) : Prop :=
  (v < g.numVerts ∧ vl.getD v 0 = L) ∨ (L, v) ∈ vi

/-- Stable insertion by key: the new element goes before the first element
with a key at least as large, so an earlier element precedes later ones
with equal keys (Rust `sort_by_key` is stable). -/
def insertByKey {α : Type} (key : α → Nat) (a : α) : List α → List α
  | [] => [a]
  | b :: l => if key a ≤ key b then a :: b :: l else b :: insertByKey key a l

/-- Stable sort by key (insertion sort), modelling `slice::sort_by_key`. -/
def stableSortByKey {α : Type} (key : α → Nat) : List α → List α
  | [] => []
  | a :: l => insertByKey key a (stableSortByKey key l)

/-- `RampTableBuilder::finish` (src/trellis/src/ramp_table.rs lines
336-356): stable-sort the pushed `(key, value)` items by key; an empty
builder yields an empty table, otherwise there are `last key + 1` keys and
the slice of key `k` holds the values pushed with key `k`, in push
order. -/
def builderFinish {α : Type} (items : List (Nat × α)) : List (List α) :=
  match (stableSortByKey Prod.fst items).getLast? with
  | none => []
  | some last =>
    (List.range (last.1 + 1)).map
      (fun k => ((stableSortByKey Prod.fst items).filter
        (fun p => p.1 = k)).map Prod.snd)

/-- The `v_pos` initialization (src/trellis/src/layering.rs lines
148-153): start from `!0u32` placeholders and write, for every layer, each
vertex's index within its layer slice. -/
def vPosInit (layerVerts : List (List Nat)) (numProperVerts : Nat) :
    List Nat :=
  layerVerts.foldl
    (fun vp verts => verts.enum.foldl (fun vp2 p => vp2.set p.2 p.1) vp)
    (List.replicate numProperVerts PLACEHOLDER)

/-- `iter_runs_by_key` (src/trellis/src/iters.rs): split a list into
maximal runs of consecutive elements with equal key (built here by a right
fold; each run is nonempty and keys are constant within a run). -/
def runsBy {α : Type} (key : α → Nat) (l : List α) : List (List α) :=
  l.foldr (fun a acc =>
    match acc with
    | [] => [[a]]
    | [] :: rs => [a] :: rs
    | (b :: r) :: rs =>
      if key a = key b then (a :: b :: r) :: rs else [a] :: (b :: r) :: rs) []

/-- The scaled barycenter of one run (src/trellis/src/layering.rs lines
220-223): the mean of the stable endpoints' positions times 1000,
truncated to an integer.  The `f32` arithmetic of the source
(`(pos_sum / len * 1000.0) as u32`) is modelled exactly over the
rationals, which for natural sum and length is the natural-number
division `sum * 1000 / len`; for the small positions and run lengths
arising in the graphs evaluated below the `f32` computation is exact, so
the models agree. -/
def scaledAvg (vPos : List Nat) (run : List (Nat × Nat)) : Nat :=
  (run.map (fun e => vPos.getD e.1 PLACEHOLDER)).sum * 1000 / run.length

/-- `min_crossings_core` (src/trellis/src/layering.rs lines 207-234):
stable-sort the `(v_stable, v_moving)` edges by `v_moving`, compute one
scaled barycenter per run of equal `v_moving`, stable-sort the
`(v_moving, scaled_avg)` pairs by the scaled average, and assign each
moving vertex its rank in that order as its new position. -/
def minCrossingsCore (vPos : List Nat) (edges : List (Nat × Nat)) :
    List Nat :=
  let sorted := stableSortByKey Prod.snd edges
  let barys := (runsBy (fun e => e.2) sorted).map
    (fun run => ((run.headD (0, 0)).2, scaledAvg vPos run))
  let sortedBarys := stableSortByKey Prod.snd barys
  sortedBarys.enum.foldl (fun vp p => vp.set p.2.1 p.1) vPos

/-- `min_crossings_up` (src/trellis/src/layering.rs lines 191-202):
iterate the layer pairs in increasing order; the stored tuples are passed
to the core pass unchanged, so the stored first component (the vertex in
layer `L + 1`) is the stable endpoint and the stored second component (the
vertex in layer `L`) is the moving one. -/
def minCrossingsUp (layerEdges : List (List (Nat × Nat)))
    (vPos : List Nat) : List Nat :=
  layerEdges.foldl (fun vp edges => minCrossingsCore vp edges) vPos

/-- `min_crossings_down` (src/trellis/src/layering.rs lines 176-187):
iterate the layer pairs in decreasing order; the stored tuples are swapped
before the core pass, so the vertex in layer `L` is the stable endpoint
and the vertex in layer `L + 1` is the moving one. -/
def minCrossingsDown (layerEdges : List (List (Nat × Nat)))
    (vPos : List Nat) : List Nat :=
  layerEdges.reverse.foldl
    (fun vp edges => minCrossingsCore vp (edges.map (fun e => (e.2, e.1))))
    vPos

/-- The `layer_verts` ramp table of `create_proper_graph`: the phase-1
pushes followed by the virtual-vertex pushes of the edge loop. -/
def properLayerVerts (g : Graph) (order : List Nat) : List (List Nat) :=
  builderFinish ((properLayerFold g order).2.1 ++
    (properEdgePhase (properLayerFold g order).1 g.flatEdges g.numVerts).1)

/-- The `layer_edges` ramp table of `create_proper_graph`. -/
def properLayerEdges (g : Graph) (order : List Nat) :
    List (List (Nat × Nat)) :=
  builderFinish
    (properEdgePhase (properLayerFold g order).1 g.flatEdges g.numVerts).2.1

/-- `num_proper_verts`: the final value of `next_virt_v`. -/
def properNumVerts (g : Graph) (order : List Nat) : Nat :=
  (properEdgePhase (properLayerFold g order).1 g.flatEdges g.numVerts).2.2

/-- The initial `v_pos` table of `create_proper_graph`. -/
def properVPos0 (g : Graph) (order : List Nat) : List Nat :=
  vPosInit (properLayerVerts g order) (properNumVerts g order)

/-- The `v_pos` table after crossing minimization: the source calls
`min_crossings_up` first and `min_crossings_down` second
(src/trellis/src/layering.rs lines 163-164). -/
def properVPosFinal (g : Graph) (order : List Nat) : List Nat :=
  minCrossingsDown (properLayerEdges g order)
    (minCrossingsUp (properLayerEdges g order) (properVPos0 g order))

/-- `create_proper_graph(graph)` (src/trellis/src/layering.rs lines
68-170).  The source returns `Ok(())`, discarding the tables it computed;
to let the specification talk about them, the embedding surfaces
`(v_layer, layer_verts, layer_edges, final v_pos)` in the `Ok` payload
(`none` for the early return on an empty topological order). -/
def create_proper_graph (g : Graph) :
    Except Error
      (Option (List Nat × List (List Nat) × List (List (Nat × Nat)) ×
        List Nat)) :=
  match topo_sort_reverse g with
  | .error e => .error e
  | .ok order =>
    if order.isEmpty then .ok none
    else .ok (some ((properLayerFold g order).1, properLayerVerts g order,
      properLayerEdges g order, properVPosFinal g order))

/-! ## Theorems -/

theorem edgesFrom_lt (g : Graph) (hwf : g.wellFormed) {w t : Nat}
    (h : t ∈ g.edgesFrom w) : t < g.numVerts := by
  unfold Graph.edgesFrom at h
  rcases lt_or_ge w g.adj.length with hlt | hge
  · rw [List.getD_eq_getElem _ _ hlt] at h
    exact hwf _ (List.getElem_mem hlt) _ h
  · rw [List.getD_eq_default _ _ hge] at h
    simp at h

theorem lt_of_edgesFrom_ne_nil {g : Graph} {v : Nat}
    (h : g.edgesFrom v ≠ []) : v < g.numVerts := by
  by_contra hge
  push_neg at hge
  exact h (List.getD_eq_default _ _ hge)

theorem hasEdge_incident_left {g : Graph} {f t : Nat} (h : g.hasEdge f t) :
    g.incident f := Or.inl ⟨t, h⟩

theorem hasEdge_incident_right {g : Graph} {f t : Nat} (h : g.hasEdge f t) :
    g.incident t := Or.inr ⟨f, h⟩

/-- Closure: a valid reverse-topological list is closed under out-edges. -/
theorem OrderOk.closed {g : Graph} {l : List Nat} (h : OrderOk g l) :
    ∀ f ∈ l, ∀ t ∈ g.edgesFrom f, t ∈ l := by
  induction h with
  | nil => simp
  | snoc h hf ih =>
    intro f hfmem t ht
    rcases List.mem_append.mp hfmem with hmem | hmem
    · exact List.mem_append_left _ (ih f hmem t ht)
    · simp only [List.mem_singleton] at hmem
      subst hmem
      exact List.mem_append_left _ (hf t ht)

/-- In a valid reverse-topological list without duplicates, the target of
every edge appears strictly before its source. -/
theorem OrderOk.indexOf_lt {g : Graph} {l : List Nat} (h : OrderOk g l)
    (hnd : l.Nodup) : ∀ f ∈ l, ∀ t ∈ g.edgesFrom f,
      t ∈ l ∧ l.indexOf t < l.indexOf f := by
  induction h with
  | nil => simp
  | @snoc l₀ f₀ h hf ih =>
    intro f hfmem t ht
    have hnd₀ : l₀.Nodup := (List.nodup_append.mp hnd).1
    have hf₀ : f₀ ∉ l₀ := by
      have hdisj := (List.nodup_append.mp hnd).2.2
      intro hc
      exact hdisj hc (by simp)
    rcases List.mem_append.mp hfmem with hmem | hmem
    · obtain ⟨htmem, hlt⟩ := ih hnd₀ f hmem t ht
      refine ⟨List.mem_append_left _ htmem, ?_⟩
      rw [List.indexOf_append_of_mem htmem, List.indexOf_append_of_mem hmem]
      exact hlt
    · simp only [List.mem_singleton] at hmem
      subst hmem
      have htmem : t ∈ l₀ := hf t ht
      refine ⟨List.mem_append_left _ htmem, ?_⟩
      rw [List.indexOf_append_of_mem htmem, List.indexOf_append_of_not_mem hf₀]
      calc l₀.indexOf t < l₀.length := List.indexOf_lt_length.mpr htmem
        _ ≤ l₀.length + [f].indexOf f := Nat.le_add_right _ _

/-- `StackOk` is monotone in the visited set. -/
theorem StackOk.mono {g : Graph} {vis vis' : Finset Nat}
    (hsub : vis ⊆ vis') :
    ∀ stack child, StackOk g vis stack child → StackOk g vis' stack child := by
  intro stack
  induction stack with
  | nil => intro child _; trivial
  | cons f rest ih =>
    intro child hok
    obtain ⟨⟨c, hc, hcvis⟩, hrest⟩ := hok
    exact ⟨⟨c, hc, fun x hx => hsub (hcvis x hx)⟩, ih _ hrest⟩

/-- From any vertex on the DFS work path there is a chain of edges down to
the current vertex. -/
theorem StackOk.chain_to_child {g : Graph} {vis : Finset Nat} :
    ∀ (stack : List (Nat × List Nat)) (child : Nat),
      StackOk g vis stack child →
      ∀ x ∈ stack.map Prod.fst, ∃ q, List.Chain g.hasEdge x (q ++ [child]) := by
  intro stack
  induction stack with
  | nil => simp
  | cons f rest ih =>
    rintro child ⟨⟨c, hc, -⟩, hrest⟩ x hx
    have hedge : g.hasEdge f.1 child := by
      unfold Graph.hasEdge
      rw [hc]
      exact List.mem_append_right _ (List.mem_cons_self _ _)
    rcases List.mem_cons.mp hx with hxf | hxrest
    · subst hxf
      exact ⟨[], List.Chain.cons hedge List.Chain.nil⟩
    · obtain ⟨q, hq⟩ := ih f.1 hrest x hxrest
      refine ⟨q ++ [f.1], ?_⟩
      have : q ++ [f.1] ++ [child] = q ++ f.1 :: [child] := by simp
      rw [this]
      exact List.chain_split.mpr ⟨hq, List.chain_singleton.mpr hedge⟩

/-- When the DFS meets a vertex that is in the work set, the graph has a
directed cycle. -/
theorem cycle_of_inWork {g : Graph} {v nextV : Nat} {rest : List Nat}
    {stack : List (Nat × List Nat)} {s : TopoState}
    (hinv : DfsInv g v (nextV :: rest) stack s)
    (hmem : nextV ∈ s.inWork) : g.hasCycle := by
  obtain ⟨-, hwork, -, hstack, ⟨c, hc, -⟩, -⟩ := hinv
  have hedge : g.hasEdge v nextV := by
    unfold Graph.hasEdge
    rw [hc]
    exact List.mem_append_right _ (List.mem_cons_self _ _)
  rw [hwork] at hmem
  rcases Finset.mem_insert.mp hmem with hveq | hstk
  · subst hveq
    exact ⟨nextV, [], List.Chain.cons hedge List.Chain.nil⟩
  · obtain ⟨q, hq⟩ := StackOk.chain_to_child stack v hstack nextV
      (List.mem_toFinset.mp hstk)
    refine ⟨nextV, q ++ [v], ?_⟩
    have : q ++ [v] ++ [nextV] = q ++ v :: [nextV] := by simp
    rw [this]
    exact List.chain_split.mpr ⟨hq, List.chain_singleton.mpr hedge⟩

theorem DfsInv.skip {g : Graph} {v nextV : Nat} {rest : List Nat}
    {stack : List (Nat × List Nat)} {s : TopoState}
    (hinv : DfsInv g v (nextV :: rest) stack s) (hvis : nextV ∈ s.visited) :
    DfsInv g v rest stack s := by
  obtain ⟨h1, h2, h3, h4, ⟨c, hc, hcvis⟩, h6⟩ := hinv
  refine ⟨h1, h2, h3, h4, ⟨c ++ [nextV], ?_, ?_⟩, h6⟩
  · rw [hc, List.append_assoc]; rfl
  · intro x hx
    rcases List.mem_append.mp hx with hx | hx
    · exact hcvis x hx
    · simp only [List.mem_singleton] at hx; subst hx; exact hvis

theorem DfsInv.descend {g : Graph} (hwf : g.wellFormed) {v nextV : Nat}
    {rest : List Nat} {stack : List (Nat × List Nat)} {s : TopoState}
    (hinv : DfsInv g v (nextV :: rest) stack s)
    (hnw : nextV ∉ s.inWork) (hnv : nextV ∉ s.visited) :
    DfsInv g nextV (g.edgesFrom nextV) ((v, rest) :: stack)
      { s with inWork := insert nextV s.inWork } := by
  obtain ⟨⟨ho1, ho2, ho3, ho4, ho5⟩, h2, ⟨h3a, h3b⟩, h4, ⟨c, hc, hcvis⟩, h6⟩ := hinv
  have hedge : g.hasEdge v nextV := by
    unfold Graph.hasEdge; rw [hc]
    exact List.mem_append_right _ (List.mem_cons_self _ _)
  constructor
  · exact ⟨ho1, ho2, ho3, ho4, by
      simp only [Finset.disjoint_insert_right]
      exact ⟨hnv, ho5⟩⟩
  refine ⟨?_, ⟨?_, ?_⟩, ?_, ?_, ?_⟩
  · simp only [List.map_cons, List.toFinset_cons, h2]
  · intro hmem
    simp only [List.map_cons, List.mem_cons] at hmem
    apply hnw
    rw [h2]
    rcases hmem with h | h
    · exact h ▸ Finset.mem_insert_self _ _
    · exact Finset.mem_insert_of_mem (List.mem_toFinset.mpr h)
  · simp only [List.map_cons, List.nodup_cons]
    exact ⟨h3a, h3b⟩
  · exact ⟨⟨c, hc, hcvis⟩, h4⟩
  · exact ⟨[], rfl, by simp⟩
  · intro w hw
    rcases Finset.mem_insert.mp hw with hweq | hwold
    · subst hweq
      exact ⟨edgesFrom_lt g hwf hedge, hasEdge_incident_right hedge⟩
    · exact h6 w hwold

theorem DfsInv.pop_state {g : Graph} {v : Nat}
    {stack : List (Nat × List Nat)} {s : TopoState}
    (hinv : DfsInv g v [] stack s) :
    StateInv g ⟨insert v s.visited, s.inWork.erase v, s.order ++ [v]⟩ := by
  obtain ⟨⟨ho1, ho2, ho3, ho4, ho5⟩, h2, -, -, ⟨c, hc, hcvis⟩, h6⟩ := hinv
  have hvwork : v ∈ s.inWork := by rw [h2]; exact Finset.mem_insert_self _ _
  have hvnvis : v ∉ s.visited := fun hmem =>
    (Finset.disjoint_left.mp ho5) hmem hvwork
  have hvnord : v ∉ s.order := fun hmem => hvnvis ((ho2 v).mpr hmem)
  refine ⟨?_, ?_, ?_, ?_, ?_⟩
  · rw [List.nodup_append]
    exact ⟨ho1, List.nodup_singleton v, by
      intro a ha hamem
      simp only [List.mem_singleton] at hamem
      subst hamem; exact hvnord ha⟩
  · intro w
    simp only [Finset.mem_insert, List.mem_append, List.mem_singleton, ho2]
    tauto
  · refine OrderOk.snoc ho3 ?_
    intro t ht
    rw [hc, List.append_nil] at ht
    exact (ho2 t).mp (hcvis t ht)
  · intro w hw
    rcases List.mem_append.mp hw with h | h
    · exact ho4 w h
    · simp only [List.mem_singleton] at h; subst h
      exact h6 w hvwork
  · simp only [Finset.disjoint_insert_left]
    refine ⟨Finset.not_mem_erase _ _, ?_⟩
    exact Finset.disjoint_of_subset_right (Finset.erase_subset _ _) ho5

theorem DfsInv.pop_frame {g : Graph} {v pv : Nat} {pEdges : List Nat}
    {stack' : List (Nat × List Nat)} {s : TopoState}
    (hinv : DfsInv g v [] ((pv, pEdges) :: stack') s) :
    DfsInv g pv pEdges stack'
      ⟨insert v s.visited, s.inWork.erase v, s.order ++ [v]⟩ := by
  have hstate := hinv.pop_state
  obtain ⟨-, h2, ⟨h3a, h3b⟩, ⟨⟨c, hcp, hcpvis⟩, h4'⟩, -, h6⟩ := hinv
  simp only [List.map_cons, List.mem_cons, not_or, List.nodup_cons] at h3a h3b
  refine ⟨hstate, ?_, ⟨h3b.1, h3b.2⟩, ?_, ?_, ?_⟩
  · show s.inWork.erase v = _
    rw [h2]
    simp only [List.map_cons, List.toFinset_cons]
    rw [Finset.erase_insert]
    simp only [Finset.mem_insert, List.mem_toFinset]
    push_neg
    exact ⟨h3a.1, h3a.2⟩
  · exact StackOk.mono (Finset.subset_insert _ _) _ _ h4'
  · refine ⟨c ++ [v], ?_, ?_⟩
    · rw [hcp, List.append_assoc]; rfl
    · intro x hx
      rcases List.mem_append.mp hx with hx | hx
      · exact Finset.mem_insert_of_mem (hcpvis x hx)
      · simp only [List.mem_singleton] at hx; subst hx
        exact Finset.mem_insert_self _ _
  · intro w hw
    exact h6 w (Finset.mem_of_mem_erase hw)

/-- Master specification of the inner DFS loop: on `error` the graph has a
cycle; on `ok` the state invariant is restored, the work set is emptied, and
everything that was on the work path has been visited. -/
theorem dfsLoop_spec (g : Graph) (hwf : g.wellFormed) :
    ∀ (fuel : Nat) (v : Nat) (vEdges : List Nat)
      (stack : List (Nat × List Nat)) (s : TopoState),
      DfsInv g v vEdges stack s →
      match dfsLoop g fuel v vEdges stack s with
      | none => True
      | some (.error _) => g.hasCycle
      | some (.ok s') => StateInv g s' ∧ s'.inWork = ∅ ∧
          s.visited ⊆ s'.visited ∧ s.order <+: s'.order ∧
          ∀ w ∈ s.inWork, w ∈ s'.visited := by
  intro fuel
  induction fuel with
  | zero => intro v vEdges stack s _; simp [dfsLoop]
  | succ fuel ih =>
    intro v vEdges stack s hinv
    match vEdges with
    | nextV :: rest =>
      by_cases hw : nextV ∈ s.inWork
      · simp only [dfsLoop, if_pos hw]
        exact cycle_of_inWork hinv hw
      · by_cases hv : nextV ∈ s.visited
        · simp only [dfsLoop, if_neg hw, if_pos hv]
          exact ih v rest stack s (hinv.skip hv)
        · simp only [dfsLoop, if_neg hw, if_neg hv]
          have hspec := ih nextV (g.edgesFrom nextV) ((v, rest) :: stack) _
            (hinv.descend hwf hw hv)
          revert hspec
          match hres : dfsLoop g fuel nextV (g.edgesFrom nextV)
              ((v, rest) :: stack) { s with inWork := insert nextV s.inWork } with
          | none => intro _; trivial
          | some (.error e) => intro h; exact h
          | some (.ok s'') =>
            rintro ⟨hs1, hs2, hs3, hs4, hs5⟩
            exact ⟨hs1, hs2, hs3, hs4,
              fun w hw' => hs5 w (Finset.mem_insert_of_mem hw')⟩
    | [] =>
      have hvwork : v ∈ s.inWork := by
        rw [hinv.2.1]; exact Finset.mem_insert_self _ _
      match stack with
      | (pv, pEdges) :: stack' =>
        simp only [dfsLoop]
        have hspec := ih pv pEdges stack' _ hinv.pop_frame
        revert hspec
        match hres : dfsLoop g fuel pv pEdges stack'
            ⟨insert v s.visited, s.inWork.erase v, s.order ++ [v]⟩ with
        | none => intro _; trivial
        | some (.error e) => intro h; exact h
        | some (.ok s'') =>
          rintro ⟨hs1, hs2, hs3, hs4, hs5⟩
          refine ⟨hs1, hs2, ?_, ?_, ?_⟩
          · exact fun x hx => hs3 (Finset.mem_insert_of_mem hx)
          · exact List.IsPrefix.trans ⟨[v], rfl⟩ hs4
          · intro w hwmem
            by_cases hweq : w = v
            · subst hweq
              exact hs3 (Finset.mem_insert_self _ _)
            · exact hs5 w (Finset.mem_erase.mpr ⟨hweq, hwmem⟩)
      | [] =>
        simp only [dfsLoop]
        refine ⟨hinv.pop_state, ?_, ?_, ⟨[v], rfl⟩, ?_⟩
        · show s.inWork.erase v = ∅
          rw [hinv.2.1]
          simp only [List.map_nil, List.toFinset_nil]
          rw [Finset.erase_insert (by simp)]
        · exact Finset.subset_insert _ _
        · intro w hwmem
          have : w = v := by
            have := hinv.2.1
            simp only [List.map_nil, List.toFinset_nil] at this
            rw [this] at hwmem
            simpa using hwmem
          subst this
          exact Finset.mem_insert_self _ _

theorem filter_insert_work (g : Graph) (vis work : Finset Nat) (x : Nat) :
    ((Finset.range g.numVerts).filter
        (fun w => w ∉ vis ∧ w ∉ insert x work)) =
      ((Finset.range g.numVerts).filter
        (fun w => w ∉ vis ∧ w ∉ work)).erase x := by
  ext w
  simp only [Finset.mem_filter, Finset.mem_erase, Finset.mem_insert,
    Finset.mem_range]
  tauto

theorem filter_pop_subset (g : Graph) (vis work : Finset Nat) (x : Nat) :
    ((Finset.range g.numVerts).filter
        (fun w => w ∉ insert x vis ∧ w ∉ work.erase x)) ⊆
      ((Finset.range g.numVerts).filter
        (fun w => w ∉ vis ∧ w ∉ work)) := by
  intro w hw
  simp only [Finset.mem_filter, Finset.mem_insert, Finset.mem_erase,
    not_and, not_or] at hw ⊢
  obtain ⟨hr, ⟨hne, hnv⟩, hnw⟩ := hw
  exact ⟨hr, hnv, fun hmem => (hnw fun heq => hne heq) hmem⟩

/-- The fuel handed out by `topo_sort_reverse` never runs out: the measure
strictly decreases at every step of the DFS loop. -/
theorem dfsLoop_isSome (g : Graph) (hwf : g.wellFormed) :
    ∀ (fuel : Nat) (v : Nat) (vEdges : List Nat)
      (stack : List (Nat × List Nat)) (s : TopoState),
      SafeState g vEdges stack →
      dfsMeasure g vEdges stack s < fuel →
      (dfsLoop g fuel v vEdges stack s).isSome := by
  intro fuel
  induction fuel with
  | zero => intro v vEdges stack s _ h; omega
  | succ fuel ih =>
    intro v vEdges stack s hsafe hlt
    match vEdges with
    | nextV :: rest =>
      by_cases hw : nextV ∈ s.inWork
      · simp [dfsLoop, if_pos hw]
      · by_cases hv : nextV ∈ s.visited
        · simp only [dfsLoop, if_neg hw, if_pos hv]
          refine ih v rest stack s ⟨?_, hsafe.2⟩ ?_
          · exact fun t ht => hsafe.1 t (List.mem_cons_of_mem _ ht)
          · unfold dfsMeasure at hlt ⊢
            simp only [List.length_cons] at hlt
            omega
        · simp only [dfsLoop, if_neg hw, if_neg hv]
          have hnlt : nextV < g.numVerts := hsafe.1 nextV (List.mem_cons_self _ _)
          refine ih nextV (g.edgesFrom nextV) ((v, rest) :: stack) _ ?_ ?_
          · refine ⟨fun t ht => edgesFrom_lt g hwf ht, ?_⟩
            intro f hf t ht
            rcases List.mem_cons.mp hf with hfe | hfr
            · subst hfe
              exact hsafe.1 t (List.mem_cons_of_mem _ ht)
            · exact hsafe.2 f hfr t ht
          · have hmemf : nextV ∈ (Finset.range g.numVerts).filter
                (fun w => w ∉ s.visited ∧ w ∉ s.inWork) := by
              simp only [Finset.mem_filter, Finset.mem_range]
              exact ⟨hnlt, hv, hw⟩
            have hsum : (((Finset.range g.numVerts).filter
                  (fun w => w ∉ s.visited ∧ w ∉ s.inWork)).erase nextV).sum
                    (edgeWeight g) + edgeWeight g nextV =
                ((Finset.range g.numVerts).filter
                  (fun w => w ∉ s.visited ∧ w ∉ s.inWork)).sum (edgeWeight g) :=
              Finset.sum_erase_add _ _ hmemf
            have hEW : edgeWeight g nextV = 1 + (g.edgesFrom nextV).length := rfl
            unfold dfsMeasure at hlt ⊢
            dsimp only at hlt ⊢
            rw [filter_insert_work]
            simp only [List.map_cons, List.sum_cons, List.length_cons] at hlt ⊢
            omega
    | [] =>
      match stack with
      | (pv, pEdges) :: stack' =>
        simp only [dfsLoop]
        refine ih pv pEdges stack' _
          ⟨fun t ht => hsafe.2 _ (List.mem_cons_self _ _) t ht,
           fun f hf t ht => hsafe.2 f (List.mem_cons_of_mem _ hf) t ht⟩ ?_
        have hsub := filter_pop_subset g s.visited s.inWork v
        have hsum : ((Finset.range g.numVerts).filter
              (fun w => w ∉ insert v s.visited ∧ w ∉ s.inWork.erase v)).sum
                (edgeWeight g) ≤
            ((Finset.range g.numVerts).filter
              (fun w => w ∉ s.visited ∧ w ∉ s.inWork)).sum (edgeWeight g) :=
          Finset.sum_le_sum_of_subset hsub
        unfold dfsMeasure at hlt ⊢
        dsimp only at hlt ⊢
        simp only [List.map_cons, List.sum_cons, List.length_cons,
          List.length_nil] at hlt ⊢
        omega
      | [] => simp [dfsLoop]

theorem sum_getD_length (l : List (List Nat)) :
    ((Finset.range l.length).sum (fun w => (l.getD w []).length)) =
      (l.map List.length).sum := by
  induction l with
  | nil => simp
  | cons a l ih =>
    simp only [List.length_cons, List.map_cons, List.sum_cons]
    rw [Finset.sum_range_succ']
    simp only [List.getD_cons_succ, List.getD_cons_zero, ih]
    omega

theorem sum_edgeWeight_le (g : Graph) (s : TopoState) :
    ((Finset.range g.numVerts).filter
      (fun w => w ∉ s.visited ∧ w ∉ s.inWork)).sum (edgeWeight g) ≤
      g.numVerts + g.numEdges := by
  calc ((Finset.range g.numVerts).filter
      (fun w => w ∉ s.visited ∧ w ∉ s.inWork)).sum (edgeWeight g)
      ≤ (Finset.range g.numVerts).sum (edgeWeight g) :=
        Finset.sum_le_sum_of_subset (Finset.filter_subset _ _)
    _ = (Finset.range g.numVerts).sum (fun _ => 1) +
        (Finset.range g.numVerts).sum (fun w => (g.edgesFrom w).length) := by
        rw [← Finset.sum_add_distrib]; rfl
    _ = g.numVerts + g.numEdges := by
        rw [Finset.sum_const, Finset.card_range, smul_eq_mul, mul_one]
        unfold Graph.numVerts Graph.numEdges Graph.edgesFrom
        rw [sum_getD_length g.adj]

theorem initial_measure_lt (g : Graph) (source : Nat) (s : TopoState)
    (hlt : source < g.numVerts) :
    dfsMeasure g (g.edgesFrom source) [] s < fuelBound g := by
  have h1 : (g.edgesFrom source).length ≤ g.numEdges := by
    have hsingle : (g.edgesFrom source).length ≤
        (Finset.range g.numVerts).sum (fun w => (g.edgesFrom w).length) :=
      @Finset.single_le_sum ℕ ℕ _ (fun w => (g.edgesFrom w).length)
        (Finset.range g.numVerts) (fun i _ => Nat.zero_le _) source
        (Finset.mem_range.mpr hlt)
    calc (g.edgesFrom source).length
        ≤ (Finset.range g.numVerts).sum (fun w => (g.edgesFrom w).length) :=
          hsingle
      _ = g.numEdges := by
          unfold Graph.numVerts Graph.numEdges Graph.edgesFrom
          rw [sum_getD_length g.adj]
  have h2 := sum_edgeWeight_le g s
  unfold dfsMeasure fuelBound
  simp only [List.map_nil, List.sum_nil, List.length_nil]
  omega

/-- Implication form of `dfsLoop_spec`, error case. -/
theorem dfsLoop_spec_error (g : Graph) (hwf : g.wellFormed) (fuel v : Nat)
    (vEdges : List Nat) (stack : List (Nat × List Nat)) (s : TopoState)
    (hinv : DfsInv g v vEdges stack s) (e : Error)
    (heq : dfsLoop g fuel v vEdges stack s = some (.error e)) :
    g.hasCycle := by
  have h := dfsLoop_spec g hwf fuel v vEdges stack s hinv
  rw [heq] at h
  exact h

/-- Implication form of `dfsLoop_spec`, success case. -/
theorem dfsLoop_spec_ok (g : Graph) (hwf : g.wellFormed) (fuel v : Nat)
    (vEdges : List Nat) (stack : List (Nat × List Nat)) (s s' : TopoState)
    (hinv : DfsInv g v vEdges stack s)
    (heq : dfsLoop g fuel v vEdges stack s = some (.ok s')) :
    StateInv g s' ∧ s'.inWork = ∅ ∧ s.visited ⊆ s'.visited ∧
      s.order <+: s'.order ∧ ∀ w ∈ s.inWork, w ∈ s'.visited := by
  have h := dfsLoop_spec g hwf fuel v vEdges stack s hinv
  rw [heq] at h
  exact h

/-- Specification of the outer loop of `topo_sort_reverse`. -/
theorem topoGo_spec (g : Graph) (hwf : g.wellFormed) :
    ∀ (pairs : List (Nat × List Nat)) (s : TopoState),
      (∀ p ∈ pairs, p.2 = g.edgesFrom p.1) →
      StateInv g s → s.inWork = ∅ →
      (∀ e, topoGo g pairs s = some (.error e) → g.hasCycle) ∧
      (∀ s', topoGo g pairs s = some (.ok s') →
        StateInv g s' ∧ s'.inWork = ∅ ∧ s.visited ⊆ s'.visited ∧
        s.order <+: s'.order ∧
        ∀ p ∈ pairs, p.2 ≠ [] → p.1 ∈ s'.visited) := by
  intro pairs
  induction pairs with
  | nil =>
    intro s _ hstate hempty
    constructor
    · intro e heq
      simp [topoGo] at heq
    · intro s' heq
      simp only [topoGo, Option.some.injEq, Except.ok.injEq] at heq
      subst heq
      exact ⟨hstate, hempty, fun x hx => hx, List.prefix_refl _, by simp⟩
  | cons p rest ih =>
    obtain ⟨source, tos⟩ := p
    intro s hpairs hstate hempty
    have htos : tos = g.edgesFrom source := hpairs _ (List.mem_cons_self _ _)
    have hrest : ∀ q ∈ rest, q.2 = g.edgesFrom q.1 :=
      fun q hq => hpairs q (List.mem_cons_of_mem _ hq)
    by_cases hvis : source ∈ s.visited
    · have hstep : topoGo g ((source, tos) :: rest) s = topoGo g rest s := by
        simp [topoGo, hvis]
      rw [hstep]
      obtain ⟨ihe, iho⟩ := ih s hrest hstate hempty
      refine ⟨ihe, ?_⟩
      intro s' heq
      obtain ⟨h1, h2, h3, h4, h5⟩ := iho s' heq
      refine ⟨h1, h2, h3, h4, ?_⟩
      intro q hq hqne
      rcases List.mem_cons.mp hq with hq | hq
      · rw [hq]
        exact h3 hvis
      · exact h5 q hq hqne
    · by_cases hnil : tos = []
      · have hstep : topoGo g ((source, tos) :: rest) s = topoGo g rest s := by
          simp [topoGo, hvis, hnil]
        rw [hstep]
        obtain ⟨ihe, iho⟩ := ih s hrest hstate hempty
        refine ⟨ihe, ?_⟩
        intro s' heq
        obtain ⟨h1, h2, h3, h4, h5⟩ := iho s' heq
        refine ⟨h1, h2, h3, h4, ?_⟩
        intro q hq hqne
        rcases List.mem_cons.mp hq with hq | hq
        · exact absurd (by rw [hq]; exact hnil) hqne
        · exact h5 q hq hqne
      · have hsrclt : source < g.numVerts := by
          apply lt_of_edgesFrom_ne_nil
          rw [← htos]; exact hnil
        have hinc : g.incident source := by
          obtain ⟨t, tl, htn⟩ := List.exists_cons_of_ne_nil hnil
          refine Or.inl ⟨t, ?_⟩
          unfold Graph.hasEdge
          rw [← htos, htn]
          exact List.mem_cons_self _ _
        have hinv : DfsInv g source tos []
            { s with inWork := insert source s.inWork } := by
          obtain ⟨h1, h2, h3, h4, h5⟩ := hstate
          refine ⟨⟨h1, h2, h3, h4, ?_⟩, ?_, by simp, trivial, ?_, ?_⟩
          · rw [hempty]
            simp only [Finset.disjoint_insert_right, Finset.disjoint_empty_right,
              and_true]
            exact hvis
          · rw [hempty]; simp
          · exact ⟨[], htos.symm, by simp⟩
          · intro w hw
            rw [hempty] at hw
            simp only [Finset.mem_insert, Finset.not_mem_empty, or_false] at hw
            subst hw
            exact ⟨hsrclt, hinc⟩
        cases hdl : dfsLoop g (fuelBound g) source tos []
            { s with inWork := insert source s.inWork } with
        | none =>
          have hstep : topoGo g ((source, tos) :: rest) s = none := by
            simp [topoGo, hvis, hnil, hdl]
          rw [hstep]
          exact ⟨fun e h => (nomatch h), fun s' h => (nomatch h)⟩
        | some r =>
          cases r with
          | error e =>
            have hstep : topoGo g ((source, tos) :: rest) s =
                some (.error e) := by
              simp [topoGo, hvis, hnil, hdl]
            rw [hstep]
            have hcyc := dfsLoop_spec_error g hwf _ _ _ _ _ hinv e hdl
            exact ⟨fun _ _ => hcyc, fun s' h => by simp at h⟩
          | ok s' =>
            have hstep : topoGo g ((source, tos) :: rest) s =
                topoGo g rest s' := by
              simp [topoGo, hvis, hnil, hdl]
            rw [hstep]
            obtain ⟨h1, h2, h3, h4, h5⟩ :=
              dfsLoop_spec_ok g hwf _ _ _ _ _ s' hinv hdl
            have hsrcvis : source ∈ s'.visited := by
              apply h5
              show source ∈ insert source s.inWork
              exact Finset.mem_insert_self _ _
            obtain ⟨ihe, iho⟩ := ih s' hrest h1 h2
            refine ⟨ihe, ?_⟩
            intro s'' heq
            obtain ⟨k1, k2, k3, k4, k5⟩ := iho s'' heq
            refine ⟨k1, k2, fun x hx => k3 (h3 hx), h4.trans k4, ?_⟩
            intro q hq hqne
            rcases List.mem_cons.mp hq with hq | hq
            · rw [hq]
              exact k3 hsrcvis
            · exact k5 q hq hqne

/-- The outer loop never returns `none` on a well-formed graph. -/
theorem topoGo_isSome (g : Graph) (hwf : g.wellFormed) :
    ∀ (pairs : List (Nat × List Nat)) (s : TopoState),
      (∀ p ∈ pairs, p.2 = g.edgesFrom p.1) →
      (topoGo g pairs s).isSome := by
  intro pairs
  induction pairs with
  | nil => intro s _; simp [topoGo]
  | cons p rest ih =>
    obtain ⟨source, tos⟩ := p
    intro s hpairs
    have htos : tos = g.edgesFrom source := hpairs _ (List.mem_cons_self _ _)
    have hrest : ∀ q ∈ rest, q.2 = g.edgesFrom q.1 :=
      fun q hq => hpairs q (List.mem_cons_of_mem _ hq)
    by_cases hvis : source ∈ s.visited
    · rw [show topoGo g ((source, tos) :: rest) s = topoGo g rest s by
        simp [topoGo, hvis]]
      exact ih s hrest
    · by_cases hnil : tos = []
      · rw [show topoGo g ((source, tos) :: rest) s = topoGo g rest s by
          simp [topoGo, hvis, hnil]]
        exact ih s hrest
      · have hsrclt : source < g.numVerts := by
          apply lt_of_edgesFrom_ne_nil
          rw [← htos]; exact hnil
        have hsafe : SafeState g tos [] := by
          refine ⟨?_, by simp⟩
          intro t ht
          rw [htos] at ht
          exact edgesFrom_lt g hwf ht
        have hm : dfsMeasure g tos []
            { s with inWork := insert source s.inWork } < fuelBound g := by
          rw [htos]
          exact initial_measure_lt g source _ hsrclt
        have hsome := dfsLoop_isSome g hwf (fuelBound g) source tos []
          { s with inWork := insert source s.inWork } hsafe hm
        cases hdl : dfsLoop g (fuelBound g) source tos []
            { s with inWork := insert source s.inWork } with
        | none => rw [hdl] at hsome; simp at hsome
        | some r =>
          cases r with
          | error e =>
            rw [show topoGo g ((source, tos) :: rest) s = some (.error e) by
              simp [topoGo, hvis, hnil, hdl]]
            simp
          | ok s' =>
            rw [show topoGo g ((source, tos) :: rest) s = topoGo g rest s' by
              simp [topoGo, hvis, hnil, hdl]]
            exact ih s' hrest

theorem enum_pairs (g : Graph) : ∀ p ∈ g.adj.enum, p.2 = g.edgesFrom p.1 := by
  rintro ⟨i, x⟩ hmem
  have h := List.mk_mem_enum_iff_getElem?.mp hmem
  show x = g.edgesFrom i
  unfold Graph.edgesFrom
  rw [List.getD_eq_getElem?_getD, h]
  rfl

theorem mem_enum_of_edgesFrom_ne_nil (g : Graph) (v : Nat)
    (h : g.edgesFrom v ≠ []) : (v, g.edgesFrom v) ∈ g.adj.enum := by
  have hlt : v < g.adj.length := lt_of_edgesFrom_ne_nil h
  apply List.mk_mem_enum_iff_getElem?.mpr
  unfold Graph.edgesFrom
  rw [List.getElem?_eq_getElem hlt, List.getD_eq_getElem _ _ hlt]

/-- Everything `topo_sort_reverse` promises about a successful run. -/
theorem topo_sort_reverse_ok (g : Graph) (hwf : g.wellFormed) {l : List Nat}
    (heq : topo_sort_reverse g = .ok l) :
    l.Nodup ∧ OrderOk g l ∧ (∀ v, v ∈ l ↔ g.incident v) ∧
      ∀ v ∈ l, v < g.numVerts := by
  have hinit : StateInv g ⟨∅, ∅, []⟩ :=
    ⟨List.nodup_nil, by simp, OrderOk.nil, by simp, by simp⟩
  cases hgo : topoGo g g.adj.enum ⟨∅, ∅, []⟩ with
  | none =>
    unfold topo_sort_reverse at heq
    rw [hgo] at heq
    exact (nomatch heq)
  | some r =>
    cases r with
    | error e =>
      unfold topo_sort_reverse at heq
      rw [hgo] at heq
      exact (nomatch heq)
    | ok s' =>
      have hl : l = s'.order := by
        unfold topo_sort_reverse at heq
        rw [hgo] at heq
        exact (Except.ok.inj heq).symm
      obtain ⟨-, hok⟩ := topoGo_spec g hwf g.adj.enum ⟨∅, ∅, []⟩
        (enum_pairs g) hinit rfl
      obtain ⟨⟨h1, h2, h3, h4, -⟩, -, -, -, h5⟩ := hok s' hgo
      subst hl
      refine ⟨h1, h3, ?_, fun v hv => (h4 v hv).1⟩
      intro v
      constructor
      · intro hv
        exact (h4 v hv).2
      · intro hinc
        have hout : ∀ w, g.edgesFrom w ≠ [] → w ∈ s'.order := by
          intro w hne
          have hpair := mem_enum_of_edgesFrom_ne_nil g w hne
          exact (h2 w).mp (h5 (w, g.edgesFrom w) hpair hne)
        rcases hinc with ⟨t, ht⟩ | ⟨f, hf⟩
        · exact hout v (List.ne_nil_of_mem ht)
        · have hfmem : f ∈ s'.order := hout f (List.ne_nil_of_mem hf)
          exact h3.closed f hfmem v hf

theorem hasEdge_mem_flatEdges (g : Graph) {a b : Nat} (h : g.hasEdge a b) :
    (a, b) ∈ g.flatEdges := by
  have hne : g.edgesFrom a ≠ [] := List.ne_nil_of_mem h
  unfold Graph.flatEdges
  rw [List.mem_flatten]
  refine ⟨(g.edgesFrom a).map (fun t => (a, t)), ?_, ?_⟩
  · rw [List.mem_map]
    exact ⟨(a, g.edgesFrom a), mem_enum_of_edgesFrom_ne_nil g a hne, rfl⟩
  · rw [List.mem_map]
    exact ⟨b, h, rfl⟩

theorem chain_cert_lt (g : Graph) (f : Nat → Nat)
    (hcert : ∀ a b, g.hasEdge a b → f b < f a) :
    ∀ (ys : List Nat) (x y : Nat), List.Chain g.hasEdge x ys →
      ys.getLast? = some y → f y < f x := by
  intro ys
  induction ys with
  | nil => intro x y _ hlast; exact (nomatch hlast)
  | cons z rest ih =>
    intro x y hchain hlast
    rw [List.chain_cons] at hchain
    obtain ⟨hedge, hchain'⟩ := hchain
    match rest, hlast with
    | [], hlast =>
      have : y = z := by
        simp only [List.getLast?_singleton, Option.some.injEq] at hlast
        exact hlast.symm
      subst this
      exact hcert x y hedge
    | r :: rs, hlast =>
      have hlast' : (r :: rs).getLast? = some y := by
        rw [← hlast]
        exact (List.getLast?_cons_cons).symm
      exact lt_trans (ih z y hchain' hlast') (hcert x z hedge)

/-- A strictly edge-decreasing rank function certifies acyclicity
(used to discharge `¬hasCycle` hypotheses on concrete graphs). -/
theorem acyclic_of_cert (g : Graph) (f : Nat → Nat)
    (hcert : ∀ p ∈ g.flatEdges, f p.2 < f p.1) : ¬g.hasCycle := by
  rintro ⟨v, p, hchain⟩
  have hlt := chain_cert_lt g f
    (fun a b h => hcert (a, b) (hasEdge_mem_flatEdges g h)) (p ++ [v]) v v
    hchain (by rw [List.getLast?_concat])
  exact lt_irrefl _ hlt

theorem chain_indexOf_lt (g : Graph) {l : List Nat} (hord : OrderOk g l)
    (hnd : l.Nodup) :
    ∀ (ys : List Nat) (x y : Nat), List.Chain g.hasEdge x ys → x ∈ l →
      ys.getLast? = some y → y ∈ l ∧ l.indexOf y < l.indexOf x := by
  intro ys
  induction ys with
  | nil => intro x y _ _ hlast; exact (nomatch hlast)
  | cons z rest ih =>
    intro x y hchain hx hlast
    rw [List.chain_cons] at hchain
    obtain ⟨hedge, hchain'⟩ := hchain
    have hz := hord.indexOf_lt hnd x hx z hedge
    match rest, hlast with
    | [], hlast =>
      have : y = z := by
        simp only [List.getLast?_singleton, Option.some.injEq] at hlast
        exact hlast.symm
      subst this
      exact hz
    | r :: rs, hlast =>
      have hlast' : (r :: rs).getLast? = some y := by
        rw [← hlast]
        exact (List.getLast?_cons_cons).symm
      obtain ⟨hy, hylt⟩ := ih z y hchain' hz.1 hlast'
      exact ⟨hy, lt_trans hylt hz.2⟩

/-- A successful `topo_sort_reverse` run excludes the existence of a cycle. -/
theorem no_cycle_of_ok (g : Graph) (hwf : g.wellFormed) {l : List Nat}
    (heq : topo_sort_reverse g = .ok l) : ¬g.hasCycle := by
  obtain ⟨hnd, hord, hmem, -⟩ := topo_sort_reverse_ok g hwf heq
  rintro ⟨v, p, hchain⟩
  have hvinc : g.incident v := by
    cases p with
    | nil =>
      rw [List.nil_append, List.chain_singleton] at hchain
      exact hasEdge_incident_left hchain
    | cons q qs =>
      rw [List.cons_append, List.chain_cons] at hchain
      exact hasEdge_incident_left hchain.1
  have hvl : v ∈ l := (hmem v).mpr hvinc
  obtain ⟨-, hlt⟩ := chain_indexOf_lt g hord hnd (p ++ [v]) v v hchain hvl
    (by rw [List.getLast?_concat])
  exact lt_irrefl _ hlt

theorem stateInv_init (g : Graph) : StateInv g ⟨∅, ∅, []⟩ :=
  ⟨List.nodup_nil, by simp, OrderOk.nil, by simp, by simp⟩

/-- A `FoundCycle` result really means there is a cycle. -/
theorem cycle_of_error (g : Graph) (hwf : g.wellFormed) (e : Error)
    (heq : topo_sort_reverse g = .error e) : g.hasCycle := by
  cases hgo : topoGo g g.adj.enum ⟨∅, ∅, []⟩ with
  | none =>
    have hsome := topoGo_isSome g hwf g.adj.enum ⟨∅, ∅, []⟩ (enum_pairs g)
    rw [hgo] at hsome
    exact (nomatch hsome)
  | some r =>
    cases r with
    | error e' =>
      exact (topoGo_spec g hwf g.adj.enum ⟨∅, ∅, []⟩ (enum_pairs g)
        (stateInv_init g) rfl).1 e' hgo
    | ok s' =>
      unfold topo_sort_reverse at heq
      rw [hgo] at heq
      exact (nomatch heq)

/-- C1: for every well-formed acyclic graph, `topo_sort_reverse` succeeds and
returns a duplicate-free list containing exactly the vertices incident to at
least one edge (no isolated vertices), in which the target of every edge
appears strictly before its source; `topo_sort` returns the same list
reversed. -/
theorem topo_sort_reverse_correct (g : Graph) (hwf : g.wellFormed)
    (hacyc : ¬g.hasCycle) :
    ∃ l, topo_sort_reverse g = .ok l ∧ l.Nodup ∧
      (∀ v, v ∈ l ↔ g.incident v) ∧
      (∀ f t, g.hasEdge f t → l.indexOf t < l.indexOf f) ∧
      topo_sort g = .ok l.reverse := by
  cases hres : topo_sort_reverse g with
  | error e => exact absurd (cycle_of_error g hwf e hres) hacyc
  | ok l =>
    obtain ⟨hnd, hord, hmem, -⟩ := topo_sort_reverse_ok g hwf hres
    refine ⟨l, rfl, hnd, hmem, ?_, ?_⟩
    · intro f t hedge
      have hf : f ∈ l := (hmem f).mpr (hasEdge_incident_left hedge)
      exact (hord.indexOf_lt hnd f hf t hedge).2
    · unfold topo_sort
      rw [hres]
      rfl

/-- C2: on a well-formed graph, `topo_sort_reverse` (and `topo_sort`) fails
with `FoundCycle` exactly when the graph contains a directed cycle, and a
self-loop `v -> v` always makes the call fail. -/
theorem topo_sort_cycle_iff (g : Graph) (hwf : g.wellFormed) :
    (topo_sort_reverse g = .error .FoundCycle ↔ g.hasCycle) ∧
    (topo_sort g = .error .FoundCycle ↔ g.hasCycle) ∧
    ∀ v, g.hasEdge v v → topo_sort_reverse g = .error .FoundCycle := by
  have hiff : topo_sort_reverse g = .error .FoundCycle ↔ g.hasCycle := by
    constructor
    · exact cycle_of_error g hwf .FoundCycle
    · intro hcyc
      cases hres : topo_sort_reverse g with
      | error e => cases e; rfl
      | ok l => exact absurd hcyc (no_cycle_of_ok g hwf hres)
  refine ⟨hiff, ?_, ?_⟩
  · rw [← hiff]
    unfold topo_sort
    cases topo_sort_reverse g with
    | error e => cases e; constructor <;> (intro h; rfl)
    | ok l =>
      constructor <;> (intro h; exact (nomatch h))
  · intro v hv
    exact hiff.mpr ⟨v, [], List.Chain.cons hv List.Chain.nil⟩

/-- Witness: `topo_sort_reverse_correct` applied to the linear path
`1 -> 2 -> 3 -> 4 -> 5` from the repository's own test suite. -/
theorem topo_sort_reverse_correct_witness :
    ∃ l, topo_sort_reverse ⟨[[], [2], [3], [4], [5], []]⟩ = .ok l ∧ l.Nodup ∧
      (∀ v, v ∈ l ↔ Graph.incident ⟨[[], [2], [3], [4], [5], []]⟩ v) ∧
      (∀ f t, Graph.hasEdge ⟨[[], [2], [3], [4], [5], []]⟩ f t →
        l.indexOf t < l.indexOf f) ∧
      topo_sort ⟨[[], [2], [3], [4], [5], []]⟩ = .ok l.reverse :=
  topo_sort_reverse_correct _ (by decide)
    (acyclic_of_cert _ (fun v => 10 - v) (by decide))

/-- Witness: `topo_sort_cycle_iff` applied to the self-loop graph `0 -> 0`
from the repository's own test suite. -/
theorem topo_sort_cycle_iff_witness :
    (topo_sort_reverse ⟨[[0]]⟩ = .error .FoundCycle ↔
      Graph.hasCycle ⟨[[0]]⟩) ∧
    (topo_sort ⟨[[0]]⟩ = .error .FoundCycle ↔ Graph.hasCycle ⟨[[0]]⟩) ∧
    ∀ v, Graph.hasEdge ⟨[[0]]⟩ v v →
      topo_sort_reverse ⟨[[0]]⟩ = .error .FoundCycle :=
  topo_sort_cycle_iff _ (by decide)

theorem getD_set_self {l : List Nat} {i v : Nat} (h : i < l.length) :
    (l.set i v).getD i 0 = v := by
  rw [List.getD_eq_getElem?_getD, List.getElem?_set_self',
    List.getElem?_eq_getElem h]
  rfl

theorem getD_set_ne {l : List Nat} {i j v : Nat} (hne : i ≠ j) :
    (l.set i v).getD j 0 = l.getD j 0 := by
  rw [List.getD_eq_getElem?_getD, List.getElem?_set_ne hne,
    ← List.getD_eq_getElem?_getD]

theorem listMax_le {xs : List Nat} {m : Nat} (hm : listMax xs = some m) :
    ∀ x ∈ xs, x ≤ m := by
  induction xs generalizing m with
  | nil => exact (nomatch hm)
  | cons y ys ih =>
    intro x hx
    unfold listMax at hm
    cases hys : listMax ys with
    | none =>
      rw [hys] at hm
      simp only [Option.some.injEq] at hm
      subst hm
      rcases List.mem_cons.mp hx with hx | hx
      · exact le_of_eq hx
      · cases ys with
        | nil => exact absurd hx (List.not_mem_nil x)
        | cons z zs =>
          refine absurd hys ?_
          unfold listMax
          cases listMax zs <;> simp
    | some mys =>
      rw [hys] at hm
      simp only [Option.some.injEq] at hm
      subst hm
      rcases List.mem_cons.mp hx with hx | hx
      · subst hx; exact le_max_left _ _
      · exact le_trans (ih hys x hx) (le_max_right _ _)

theorem listMax_eq_nil {xs : List Nat} (h : listMax xs = none) : xs = [] := by
  cases xs with
  | nil => rfl
  | cons y ys =>
    exfalso
    have : ∃ m, listMax (y :: ys) = some m := by
      unfold listMax
      cases listMax ys with
      | none => exact ⟨y, rfl⟩
      | some m => exact ⟨max y m, rfl⟩
    obtain ⟨m, hm⟩ := this
    rw [hm] at h
    exact (nomatch h)

theorem layerValue_gt {g : Graph} {vl : List Nat} {f t : Nat}
    (ht : t ∈ g.edgesFrom f) : vl.getD t 0 < layerValue g vl f := by
  unfold layerValue
  split
  · rename_i m hm
    have hle := listMax_le hm _ (List.mem_map_of_mem _ ht)
    omega
  · rename_i hm
    exfalso
    have := listMax_eq_nil hm
    rw [List.map_eq_nil_iff] at this
    rw [this] at ht
    exact List.not_mem_nil t ht

theorem listMax_isSome {xs : List Nat} (h : xs ≠ []) :
    ∃ m, listMax xs = some m := by
  match xs, h with
  | y :: ys, _ =>
    unfold listMax
    match listMax ys with
    | none => exact ⟨y, rfl⟩
    | some m => exact ⟨max y m, rfl⟩

theorem mem_prefix_of_indexOf_lt {t : Nat} {p u : List Nat}
    (hmem : t ∈ p ++ u) (hlt : (p ++ u).indexOf t < p.length) : t ∈ p := by
  by_contra hnp
  rw [List.indexOf_append_of_not_mem hnp] at hlt
  omega

/-- The invariant carried through the layer-assignment fold: every processed
vertex satisfies the layer fixpoint equation, every untouched entry is 0. -/
theorem layerFold_invariant (g : Graph) {l : List Nat}
    (hnd : l.Nodup) (hbound : ∀ v ∈ l, v < g.numVerts) (hord : OrderOk g l) :
    ∀ (rem done vl : List Nat),
      l = done ++ rem →
      vl.length = g.numVerts →
      (∀ v, v ∉ done → vl.getD v 0 = 0) →
      (∀ f ∈ done, vl.getD f 0 = layerValue g vl f) →
      (rem.foldl (layerStep g) vl).length = g.numVerts ∧
      (∀ v, v ∉ l → (rem.foldl (layerStep g) vl).getD v 0 = 0) ∧
      (∀ f ∈ l, (rem.foldl (layerStep g) vl).getD f 0 =
        layerValue g (rem.foldl (layerStep g) vl) f) := by
  intro rem
  induction rem with
  | nil =>
    intro done vl hsplit hlen hzero heq
    rw [List.append_nil] at hsplit
    subst hsplit
    exact ⟨hlen, hzero, heq⟩
  | cons f rem' ih =>
    intro done vl hsplit hlen hzero heq
    have hfl : f ∈ l := by rw [hsplit]; simp
    have hflt : f < g.numVerts := hbound f hfl
    have hfdone : f ∉ done := by
      have := hnd
      rw [hsplit] at this
      rw [List.nodup_append] at this
      intro hc
      exact this.2.2 hc (List.mem_cons_self _ _)
    have hidxf : l.indexOf f = done.length := by
      rw [hsplit, List.indexOf_append_of_not_mem hfdone,
        List.indexOf_cons_self]
      omega
    -- out-neighbors of f were all processed earlier
    have hnbr : ∀ t ∈ g.edgesFrom f, t ∈ done := by
      intro t ht
      obtain ⟨htl, hlt⟩ := hord.indexOf_lt hnd f hfl t ht
      rw [hidxf] at hlt
      rw [hsplit] at htl hlt
      exact mem_prefix_of_indexOf_lt htl hlt
    have hnbr_ne : ∀ t ∈ g.edgesFrom f, t ≠ f :=
      fun t ht hc => hfdone (hc ▸ hnbr t ht)
    have hvalue : ∀ X, layerValue g (vl.set f X) f = layerValue g vl f := by
      intro X
      unfold layerValue
      have hmapeq : (g.edgesFrom f).map (fun t => (vl.set f X).getD t 0) =
          (g.edgesFrom f).map (fun t => vl.getD t 0) :=
        List.map_congr_left (fun t ht => getD_set_ne (fun hc =>
          hnbr_ne t ht hc.symm))
      rw [hmapeq]
    refine ih (done ++ [f]) (layerStep g vl f) ?_ ?_ ?_ ?_
    · rw [hsplit, List.append_assoc]; rfl
    · unfold layerStep; rw [List.length_set]; exact hlen
    · intro v hv
      rw [List.mem_append, List.mem_singleton, not_or] at hv
      unfold layerStep
      rw [getD_set_ne (fun hc => hv.2 hc.symm)]
      exact hzero v hv.1
    · intro d hd
      rcases List.mem_append.mp hd with hd | hd
      · have hdne : d ≠ f := fun hc => hfdone (hc ▸ hd)
        have hidxd : l.indexOf d < done.length := by
          rw [hsplit, List.indexOf_append_of_mem hd]
          exact List.indexOf_lt_length.mpr hd
        -- d's out-neighbors are also ≠ f, so its equation is untouched
        have hdl : d ∈ l := by rw [hsplit]; exact List.mem_append_left _ hd
        have hnbrd : ∀ t ∈ g.edgesFrom d, t ≠ f := by
          intro t ht hc
          obtain ⟨-, hlt⟩ := hord.indexOf_lt hnd d hdl t ht
          rw [hc, hidxf] at hlt
          omega
        have hmap2 : ∀ X, layerValue g (vl.set f X) d = layerValue g vl d := by
          intro X
          unfold layerValue
          have hmapeq : (g.edgesFrom d).map (fun t => (vl.set f X).getD t 0) =
              (g.edgesFrom d).map (fun t => vl.getD t 0) :=
            List.map_congr_left (fun t ht => getD_set_ne (fun hc =>
              hnbrd t ht hc.symm))
          rw [hmapeq]
        unfold layerStep
        rw [getD_set_ne (fun hc => hdne hc.symm), hmap2]
        exact heq d hd
      · rw [List.mem_singleton] at hd
        subst hd
        unfold layerStep
        rw [getD_set_self (by rw [hlen]; exact hflt)]
        exact (hvalue _).symm

/-- C3: for every well-formed acyclic graph, `create_layer_map` succeeds; in
the result every edge `f -> t` satisfies `v_layer[f] > v_layer[t]`,
`num_layers = max(v_layer) + 1` (which is `1` for the empty graph), and every
vertex's layer is `1 + max(layer of out-neighbors)` or `0` for a vertex
without out-neighbors. -/
theorem create_layer_map_correct (g : Graph) (hwf : g.wellFormed)
    (hacyc : ¬g.hasCycle) :
    ∃ lm, create_layer_map g = .ok lm ∧
      (∀ f t, g.hasEdge f t → lm.v_layer.getD t 0 < lm.v_layer.getD f 0) ∧
      lm.num_layers = (listMax lm.v_layer).getD 0 + 1 ∧
      (g.numVerts = 0 → lm.num_layers = 1) ∧
      (∀ f, f < g.numVerts → lm.v_layer.getD f 0 = layerValue g lm.v_layer f) := by
  obtain ⟨l, hres⟩ : ∃ l, topo_sort_reverse g = .ok l := by
    cases hres : topo_sort_reverse g with
    | error e => exact absurd (cycle_of_error g hwf e hres) hacyc
    | ok l => exact ⟨l, rfl⟩
  obtain ⟨hnd, hord, hmem, hbound⟩ := topo_sort_reverse_ok g hwf hres
  have hlm : create_layer_map g =
      .ok { num_layers := (listMax (layerFold g l)).getD 0 + 1
            v_layer := layerFold g l } := by
    unfold create_layer_map
    rw [hres]
    rfl
  have hgetD0 : ∀ v : Nat, (List.replicate g.numVerts (0 : Nat)).getD v 0 = 0 := by
    intro v
    rw [List.getD_eq_getElem?_getD, List.getElem?_replicate]
    split <;> rfl
  obtain ⟨hlen, hzero, heq⟩ := layerFold_invariant g hnd hbound hord l []
    (List.replicate g.numVerts 0) rfl (by simp)
    (fun v _ => hgetD0 v) (by simp)
  have heqAll : ∀ f, f < g.numVerts →
      (layerFold g l).getD f 0 = layerValue g (layerFold g l) f := by
    intro f hflt
    unfold layerFold
    by_cases hfl : f ∈ l
    · exact heq f hfl
    · have hfiso : g.edgesFrom f = [] := by
        rw [List.eq_nil_iff_forall_not_mem]
        intro t ht
        exact hfl ((hmem f).mpr (Or.inl ⟨t, ht⟩))
      rw [hzero f hfl]
      unfold layerValue
      rw [hfiso]
      rfl
  refine ⟨_, hlm, ?_, rfl, ?_, heqAll⟩
  · intro f t hedge
    have hfl : f ∈ l := (hmem f).mpr (hasEdge_incident_left hedge)
    have hflt : f < g.numVerts := hbound f hfl
    show (layerFold g l).getD t 0 < (layerFold g l).getD f 0
    rw [heqAll f hflt]
    exact layerValue_gt hedge
  · intro hnv
    have : layerFold g l = [] := by
      rw [← List.length_eq_zero]
      unfold layerFold
      rw [hlen, hnv]
    show (listMax (layerFold g l)).getD 0 + 1 = 1
    rw [this]
    rfl

/-- Witness: `create_layer_map_correct` on the linear path `1 -> … -> 5`
(layers `{1:4, 2:3, 3:2, 4:1, 5:0}` per the spec's concrete scenario). -/
theorem create_layer_map_correct_witness :
    ∃ lm, create_layer_map ⟨[[], [2], [3], [4], [5], []]⟩ = .ok lm ∧
      (∀ f t, Graph.hasEdge ⟨[[], [2], [3], [4], [5], []]⟩ f t →
        lm.v_layer.getD t 0 < lm.v_layer.getD f 0) ∧
      lm.num_layers = (listMax lm.v_layer).getD 0 + 1 ∧
      (Graph.numVerts ⟨[[], [2], [3], [4], [5], []]⟩ = 0 → lm.num_layers = 1) ∧
      (∀ f, f < Graph.numVerts ⟨[[], [2], [3], [4], [5], []]⟩ →
        lm.v_layer.getD f 0 =
          layerValue ⟨[[], [2], [3], [4], [5], []]⟩ lm.v_layer f) :=
  create_layer_map_correct _ (by decide)
    (acyclic_of_cert _ (fun v => 10 - v) (by decide))

theorem getD_set_self_d {l : List Nat} {i v d : Nat} (h : i < l.length) :
    (l.set i v).getD i d = v := by
  rw [List.getD_eq_getElem?_getD, List.getElem?_set_self',
    List.getElem?_eq_getElem h]
  rfl

theorem getD_set_ne_d {l : List Nat} {i j v d : Nat} (hne : i ≠ j) :
    (l.set i v).getD j d = l.getD j d := by
  rw [List.getD_eq_getElem?_getD, List.getElem?_set_ne hne,
    ← List.getD_eq_getElem?_getD]

theorem cntKey_append (done : List (Nat × Nat)) (k k₀ v₀ : Nat) :
    cntKey (done ++ [(k₀, v₀)]) k =
      cntKey done k + if k₀ = k then 1 else 0 := by
  unfold cntKey
  rw [List.filter_append, List.length_append]
  by_cases h : k₀ = k <;> simp [h]

theorem cntKey_prefix_le {done todo pairs : List (Nat × Nat)} (k : Nat)
    (h : pairs = done ++ todo) : cntKey done k ≤ cntKey pairs k := by
  subst h
  unfold cntKey
  rw [List.filter_append, List.length_append]
  omega

theorem cntKey_mid {done todo : List (Nat × Nat)} {k₀ v₀ : Nat} :
    cntKey done k₀ < cntKey (done ++ (k₀, v₀) :: todo) k₀ := by
  unfold cntKey
  rw [List.filter_append, List.length_append, List.filter_cons]
  simp

theorem keysBelow_zero (pairs : List (Nat × Nat)) : keysBelow pairs 0 = 0 := by
  unfold keysBelow
  simp

theorem keysBelow_succ (pairs : List (Nat × Nat)) (k : Nat) :
    keysBelow pairs (k + 1) = keysBelow pairs k + cntKey pairs k := by
  unfold keysBelow cntKey
  induction pairs with
  | nil => simp
  | cons p rest ih =>
    simp only [List.map_cons, List.filter_cons, decide_eq_true_eq]
    by_cases h2 : p.1 < k
    · rw [if_pos (show p.1 < k + 1 by omega), if_pos h2,
        if_neg (show ¬p.1 = k by omega)]
      simp only [List.length_cons]
      omega
    · by_cases h3 : p.1 = k
      · rw [if_pos (show p.1 < k + 1 by omega), if_neg h2, if_pos h3]
        simp only [List.length_cons]
        omega
      · rw [if_neg (show ¬p.1 < k + 1 by omega), if_neg h2, if_neg h3]
        omega

theorem keysBelow_mono (pairs : List (Nat × Nat)) {k k' : Nat} (h : k ≤ k') :
    keysBelow pairs k ≤ keysBelow pairs k' := by
  induction k', h using Nat.le_induction with
  | base => exact le_refl _
  | succ n hn ih => rw [keysBelow_succ]; omega

theorem keysBelow_top {numKeys : Nat} {pairs : List (Nat × Nat)}
    (hkeys : ∀ p ∈ pairs, p.1 < numKeys) :
    keysBelow pairs numKeys = pairs.length := by
  unfold keysBelow
  rw [List.filter_eq_self.mpr, List.length_map]
  intro x hx
  rw [List.mem_map] at hx
  obtain ⟨p, hp, hpx⟩ := hx
  subst hpx
  exact decide_eq_true (hkeys p hp)

/-- Correctness of the shared counting-sort scatter pass: starting from
zeroed cursors and a placeholder output, processing the pairs in order
fills the slice of every key with exactly the values carried by that key,
in their original order. -/
theorem scatterGo_spec (numKeys : Nat) (pairs : List (Nat × Nat))
    (hkeys : ∀ p ∈ pairs, p.1 < numKeys) (tIndex : List Nat)
    (hti : ∀ k, k ≤ numKeys → tIndex.getD k 0 = keysBelow pairs k) :
    ∀ (todo done : List (Nat × Nat)) (counts values : List Nat),
      pairs = done ++ todo →
      counts.length = numKeys →
      values.length = pairs.length →
      (∀ k, k < numKeys → counts.getD k 0 = cntKey done k) →
      (∀ k, k < numKeys → ∀ j, j < cntKey done k →
        values.getD (tIndex.getD k 0 + j) PLACEHOLDER =
          ((done.filter (fun p => p.1 = k)).map Prod.snd).getD j PLACEHOLDER) →
      (∀ k, k < numKeys → ∀ j, cntKey done k ≤ j →
        tIndex.getD k 0 + j < tIndex.getD (k + 1) 0 →
        values.getD (tIndex.getD k 0 + j) PLACEHOLDER = PLACEHOLDER) →
      (scatterGo tIndex todo (counts, values)).2.length = pairs.length ∧
      ∀ k, k < numKeys → ∀ j, j < cntKey pairs k →
        (scatterGo tIndex todo (counts, values)).2.getD
            (tIndex.getD k 0 + j) PLACEHOLDER =
          ((pairs.filter (fun p => p.1 = k)).map Prod.snd).getD j
            PLACEHOLDER := by
  intro todo
  induction todo with
  | nil =>
    intro done counts values hsplit hclen hvlen hcnt hdata hph
    rw [List.append_nil] at hsplit
    subst hsplit
    exact ⟨hvlen, fun k hk j hj => hdata k hk j hj⟩
  | cons e todo' ih =>
    obtain ⟨k₀, v₀⟩ := e
    intro done counts values hsplit hclen hvlen hcnt hdata hph
    have hk₀ : k₀ < numKeys := hkeys (k₀, v₀) (by rw [hsplit]; simp)
    have hc : counts.getD k₀ 0 = cntKey done k₀ := hcnt k₀ hk₀
    have hcntlt : cntKey done k₀ < cntKey pairs k₀ := by
      rw [hsplit]
      exact cntKey_mid
    have htik₀ : tIndex.getD k₀ 0 = keysBelow pairs k₀ :=
      hti k₀ (Nat.le_of_lt hk₀)
    have htik₀' : tIndex.getD (k₀ + 1) 0 =
        keysBelow pairs k₀ + cntKey pairs k₀ := by
      rw [hti (k₀ + 1) hk₀, keysBelow_succ]
    have htitop : tIndex.getD numKeys 0 = pairs.length := by
      rw [hti numKeys (le_refl _), keysBelow_top hkeys]
    have hplt : tIndex.getD k₀ 0 + counts.getD k₀ 0 <
        tIndex.getD (k₀ + 1) 0 := by
      rw [hc, htik₀, htik₀']
      omega
    have hpln : tIndex.getD k₀ 0 + counts.getD k₀ 0 < values.length := by
      have hmono : tIndex.getD (k₀ + 1) 0 ≤ tIndex.getD numKeys 0 := by
        rw [hti (k₀ + 1) hk₀, htitop, ← keysBelow_top hkeys]
        exact keysBelow_mono pairs hk₀
      omega
    -- positions inside the slice of any other key miss the write position
    have hdisj : ∀ k, k < numKeys → k ≠ k₀ → ∀ j,
        tIndex.getD k 0 + j < tIndex.getD (k + 1) 0 →
        tIndex.getD k 0 + j ≠ tIndex.getD k₀ 0 + counts.getD k₀ 0 := by
      intro k hk hne j hjlt
      rcases Nat.lt_or_ge k k₀ with hlt | hge
      · have h1 : tIndex.getD (k + 1) 0 ≤ tIndex.getD k₀ 0 := by
          rw [hti (k + 1) hk, htik₀]
          exact keysBelow_mono pairs hlt
        omega
      · have hlt' : k₀ + 1 ≤ k := by omega
        have h1 : tIndex.getD (k₀ + 1) 0 ≤ tIndex.getD k 0 := by
          rw [htik₀', hti k (Nat.le_of_lt hk)]
          have hmono := keysBelow_mono pairs hlt'
          rw [keysBelow_succ] at hmono
          omega
        omega
    show (scatterGo tIndex ((k₀, v₀) :: todo') (counts, values)).2.length =
        pairs.length ∧ _
    unfold scatterGo
    refine ih (done ++ [(k₀, v₀)]) (counts.set k₀ (counts.getD k₀ 0 + 1))
      (values.set (tIndex.getD k₀ 0 + counts.getD k₀ 0) v₀) ?_ ?_ ?_ ?_ ?_ ?_
    · rw [hsplit, List.append_assoc]; rfl
    · rw [List.length_set]; exact hclen
    · rw [List.length_set]; exact hvlen
    · intro k hk
      rcases eq_or_ne k k₀ with hke | hke
      · subst hke
        rw [getD_set_self_d (by rw [hclen]; exact hk), hc, cntKey_append]
        simp
      · rw [getD_set_ne_d (fun hcc => hke hcc.symm), hcnt k hk,
          cntKey_append, if_neg (Ne.symm hke), Nat.add_zero]
    · intro k hk j hj
      rcases eq_or_ne k k₀ with hke | hke
      · subst hke
        rw [cntKey_append, if_pos rfl] at hj
        have hfilterapp : ((done ++ [(k, v₀)]).filter
              (fun p => p.1 = k)).map Prod.snd =
            ((done.filter (fun p => p.1 = k)).map Prod.snd) ++ [v₀] := by
          rw [List.filter_append, List.map_append]
          simp
        rw [hfilterapp]
        rcases Nat.lt_or_ge j (cntKey done k) with hjlt | hjge
        · rw [List.getD_append _ _ _ _ (by
            rw [List.length_map]
            exact hjlt)]
          rw [getD_set_ne_d (show tIndex.getD k 0 + counts.getD k 0 ≠
            tIndex.getD k 0 + j by rw [hc]; omega)]
          exact hdata k hk j hjlt
        · have hjeq : j = cntKey done k := by omega
          subst hjeq
          have hlenmap :
              ((done.filter (fun p => p.1 = k)).map Prod.snd).length =
                cntKey done k := by
            rw [List.length_map]; rfl
          rw [List.getD_append_right _ _ _ _ (by rw [hlenmap])]
          rw [hlenmap, Nat.sub_self]
          rw [show tIndex.getD k 0 + cntKey done k =
            tIndex.getD k 0 + counts.getD k 0 by rw [hc]]
          rw [getD_set_self_d hpln]
          rfl
      · rw [cntKey_append, if_neg (Ne.symm hke), Nat.add_zero] at hj
        have hslice : tIndex.getD k 0 + j < tIndex.getD (k + 1) 0 := by
          rw [hti k (Nat.le_of_lt hk), hti (k + 1) hk, keysBelow_succ]
          have hple := cntKey_prefix_le k hsplit
          omega
        rw [getD_set_ne_d (Ne.symm (hdisj k hk hke j hslice))]
        have hfiltereq : (done ++ [(k₀, v₀)]).filter (fun p => p.1 = k) =
            done.filter (fun p => p.1 = k) := by
          rw [List.filter_append]
          have hnil : [(k₀, v₀)].filter (fun p => p.1 = k) = [] := by
            simp [Ne.symm hke]
          rw [hnil, List.append_nil]
        rw [hfiltereq]
        exact hdata k hk j hj
    · intro k hk j hj hjlt
      rcases eq_or_ne k k₀ with hke | hke
      · subst hke
        rw [cntKey_append, if_pos rfl] at hj
        rw [getD_set_ne_d (show tIndex.getD k 0 + counts.getD k 0 ≠
          tIndex.getD k 0 + j by rw [hc]; omega)]
        exact hph k hk j (by omega) hjlt
      · rw [cntKey_append, if_neg (Ne.symm hke), Nat.add_zero] at hj
        rw [getD_set_ne_d (Ne.symm (hdisj k hk hke j hjlt))]
        exact hph k hk j hj hjlt

theorem integrate_length : ∀ (l : List Nat) (s : Nat),
    (integrate l s).length = l.length := by
  intro l
  induction l with
  | nil => intro s; rfl
  | cons x xs ih =>
    intro s
    show (integrate xs (s + x)).length + 1 = xs.length + 1
    rw [ih]

theorem integrate_getD : ∀ (l : List Nat) (s i : Nat), i < l.length →
    (integrate l s).getD i 0 = s + (l.take (i + 1)).sum := by
  intro l
  induction l with
  | nil => intro s i h; simp at h
  | cons x xs ih =>
    intro s i h
    cases i with
    | zero =>
      show (s + x) = s + ([x] ++ xs.take 0).sum
      simp
    | succ i' =>
      show (integrate xs (s + x)).getD i' 0 = _
      rw [ih (s + x) i' (by simpa using h), List.take_succ_cons,
        List.sum_cons]
      omega

theorem foldl_set_length (values : List Nat) :
    ∀ (A : List Nat),
      (values.foldl (fun ti t0 => ti.set (t0 + 1) (ti.getD (t0 + 1) 0 + 1))
        A).length = A.length := by
  induction values with
  | nil => intro A; rfl
  | cons t0 rest ih =>
    intro A
    show (rest.foldl _ (A.set (t0 + 1) _)).length = A.length
    rw [ih, List.length_set]

theorem countPass_length (nv : Nat) (values : List Nat) :
    (countPass nv values).length = nv + 1 := by
  unfold countPass
  rw [foldl_set_length, List.length_replicate]

theorem countPass_getD (nv : Nat) (values : List Nat)
    (hvals : ∀ t ∈ values, t < nv) (i : Nat) (hi : i ≤ nv) :
    (countPass nv values).getD i 0 =
      (values.filter (fun t0 => t0 + 1 = i)).length := by
  unfold countPass
  have hgo : ∀ (vs A : List Nat), (∀ t ∈ vs, t + 1 < A.length) →
      ((vs.foldl (fun ti t0 => ti.set (t0 + 1) (ti.getD (t0 + 1) 0 + 1))
        A).getD i 0) = A.getD i 0 + (vs.filter (fun t0 => t0 + 1 = i)).length := by
    intro vs
    induction vs with
    | nil => intro A _; simp
    | cons t0 rest ih =>
      intro A h
      show (rest.foldl _ (A.set (t0 + 1) (A.getD (t0 + 1) 0 + 1))).getD i 0 = _
      rw [ih _ (fun t ht => by
        rw [List.length_set]
        exact h t (List.mem_cons_of_mem _ ht))]
      rw [List.filter_cons]
      by_cases hti : t0 + 1 = i
      · rw [← hti, getD_set_self_d (h t0 (List.mem_cons_self _ _)),
          if_pos (show decide (t0 + 1 = t0 + 1) = true by simp),
          List.length_cons]
        omega
      · rw [getD_set_ne_d hti,
          if_neg (show ¬decide (t0 + 1 = i) = true by simp [hti])]
  rw [hgo values (List.replicate (nv + 1) 0)
    (fun t ht => by rw [List.length_replicate]; have := hvals t ht; omega)]
  have hz : (List.replicate (nv + 1) (0 : Nat)).getD i 0 = 0 := by
    rw [List.getD_eq_getElem?_getD, List.getElem?_replicate]
    split <;> rfl
  rw [hz, Nat.zero_add]

theorem allValues_eq_flatEdges (g : Graph) :
    g.allValues = g.flatEdges.map Prod.snd := by
  unfold Graph.allValues Graph.flatEdges
  rw [List.map_flatten, List.map_map]
  have h2 : (List.map Prod.snd ∘ fun p : Nat × List Nat =>
      List.map (fun t => (p.1, t)) p.2) = Prod.snd := by
    funext p
    show (p.2.map (fun t => (p.1, t))).map Prod.snd = p.2
    simp
  rw [h2, List.enum_map_snd]

theorem mem_flatEdges {g : Graph} {f t : Nat} :
    (f, t) ∈ g.flatEdges ↔ g.hasEdge f t := by
  constructor
  · intro h
    unfold Graph.flatEdges at h
    rw [List.mem_flatten] at h
    obtain ⟨lst, hlst, hmem⟩ := h
    rw [List.mem_map] at hlst
    obtain ⟨q, hq, hql⟩ := hlst
    subst hql
    rw [List.mem_map] at hmem
    obtain ⟨t', ht', heq⟩ := hmem
    have hf : q.1 = f := congrArg Prod.fst heq
    have ht : t' = t := congrArg Prod.snd heq
    subst hf; subst ht
    unfold Graph.hasEdge
    rw [← enum_pairs g q hq]
    exact ht'
  · exact hasEdge_mem_flatEdges g

theorem transposePairs_keys (g : Graph) (hwf : g.wellFormed) :
    ∀ p ∈ transposePairs g, p.1 < g.numVerts := by
  intro p hp
  unfold transposePairs at hp
  rw [List.mem_map] at hp
  obtain ⟨e, he, hpe⟩ := hp
  subst hpe
  obtain ⟨f, t⟩ := e
  exact edgesFrom_lt g hwf (mem_flatEdges.mp he)

theorem transposeIndex_spec (g : Graph) (hwf : g.wellFormed) :
    ∀ k, k ≤ g.numVerts →
      (transposeIndex g).getD k 0 = keysBelow (transposePairs g) k := by
  have hvals : ∀ t ∈ g.allValues, t < g.numVerts := by
    intro t ht
    rw [allValues_eq_flatEdges, List.mem_map] at ht
    obtain ⟨e, he, het⟩ := ht
    subst het
    obtain ⟨f, t'⟩ := e
    exact edgesFrom_lt g hwf (mem_flatEdges.mp he)
  have hcnt : ∀ k, cntKey (transposePairs g) k =
      (g.allValues.filter (fun t0 => t0 = k)).length := by
    intro k
    unfold cntKey transposePairs
    rw [allValues_eq_flatEdges]
    rw [List.filter_map, List.filter_map, List.length_map, List.length_map]
    rfl
  intro k
  induction k with
  | zero =>
    intro _
    unfold transposeIndex
    rw [integrate_getD _ _ _ (by rw [countPass_length]; omega)]
    rw [keysBelow_zero]
    have h1 : (countPass g.numVerts g.allValues).take 1 =
        [(countPass g.numVerts g.allValues).getD 0 0] := by
      have hlen : 0 < (countPass g.numVerts g.allValues).length := by
        rw [countPass_length]; omega
      rw [List.take_one]
      cases hcp : countPass g.numVerts g.allValues with
      | nil => rw [hcp] at hlen; simp at hlen
      | cons a l => simp [List.getD_cons_zero]
    rw [h1, List.sum_cons, List.sum_nil,
      countPass_getD _ _ hvals 0 (by omega)]
    have : (g.allValues.filter (fun t0 => t0 + 1 = 0)) = [] := by
      rw [List.filter_eq_nil_iff]
      intro a _
      simp
    rw [this]
    rfl
  | succ k ihk =>
    intro hk1
    have hk : k ≤ g.numVerts := by omega
    unfold transposeIndex
    rw [integrate_getD _ _ _ (by rw [countPass_length]; omega)]
    have hsum : ((countPass g.numVerts g.allValues).take (k + 2)).sum =
        ((countPass g.numVerts g.allValues).take (k + 1)).sum +
          (countPass g.numVerts g.allValues).getD (k + 1) 0 := by
      have hlt : k + 1 < (countPass g.numVerts g.allValues).length := by
        rw [countPass_length]; omega
      rw [List.sum_take_succ _ _ hlt, List.getD_eq_getElem _ _ hlt]
    rw [hsum]
    have hprev := ihk hk
    unfold transposeIndex at hprev
    rw [integrate_getD _ _ _ (by rw [countPass_length]; omega)] at hprev
    rw [Nat.zero_add] at hprev ⊢
    rw [hprev, keysBelow_succ, hcnt k,
      countPass_getD _ _ hvals (k + 1) (by omega)]
    have : g.allValues.filter (fun t0 => t0 + 1 = k + 1) =
        g.allValues.filter (fun t0 => t0 = k) := by
      apply List.filter_congr
      intro x _
      simp only [decide_eq_decide]
      omega
    rw [this]

theorem slice_eq_of_pointwise {values L : List Nat} {a b : Nat}
    (hab : a ≤ b) (hbl : b ≤ values.length) (hL : L.length = b - a)
    (hpt : ∀ j, j < b - a →
      values.getD (a + j) PLACEHOLDER = L.getD j PLACEHOLDER) :
    (values.take b).drop a = L := by
  apply List.ext_getElem?
  intro j
  have hlen : ((values.take b).drop a).length = b - a := by
    rw [List.length_drop, List.length_take]
    omega
  by_cases hj : j < b - a
  · have h1 : ((values.take b).drop a)[j]? = values[a + j]? := by
      rw [List.getElem?_drop, List.getElem?_take, if_pos (by omega)]
    have h2 : values[a + j]? = some (values.getD (a + j) PLACEHOLDER) := by
      rw [List.getD_eq_getElem _ _ (by omega)]
      exact List.getElem?_eq_getElem (by omega)
    have h3 : L[j]? = some (L.getD j PLACEHOLDER) := by
      rw [List.getD_eq_getElem _ _ (by omega)]
      exact List.getElem?_eq_getElem (by omega)
    rw [h1, h2, h3, hpt j hj]
  · rw [List.getElem?_eq_none (by omega), List.getElem?_eq_none (by omega)]

/-- The central characterization of `transpose`: the out-neighbor slice of
`v` in the transposed graph is exactly the list of sources of the edges
into `v`, in edge-iteration order. -/
theorem transpose_edgesFrom (g : Graph) (hwf : g.wellFormed) {v : Nat}
    (hv : v < g.numVerts) :
    (g.transpose).edgesFrom v =
      (g.flatEdges.filter (fun e => e.2 = v)).map Prod.fst := by
  have hkeys := transposePairs_keys g hwf
  have hti := transposeIndex_spec g hwf
  have hplen : (transposePairs g).length = g.numEdges := by
    unfold transposePairs
    rw [List.length_map]
    have := congrArg List.length (allValues_eq_flatEdges g)
    rw [List.length_map] at this
    unfold Graph.allValues at this
    rw [List.length_flatten] at this
    unfold Graph.numEdges
    omega
  obtain ⟨hlen, hdata⟩ := scatterGo_spec g.numVerts (transposePairs g) hkeys
    (transposeIndex g) hti (transposePairs g) [] (List.replicate g.numVerts 0)
    (List.replicate g.numEdges PLACEHOLDER) rfl (List.length_replicate _ _)
    (by rw [List.length_replicate]; omega)
    (fun k hk => by
      rw [List.getD_eq_getElem?_getD, List.getElem?_replicate]
      split <;> rfl)
    (fun k hk j hj => by
      unfold cntKey at hj
      simp at hj)
    (fun k hk j hj hjlt => by
      rw [List.getD_eq_getElem?_getD, List.getElem?_replicate]
      split <;> rfl)
  have hedges : (g.transpose).edgesFrom v =
      ((transposeValues g).take ((transposeIndex g).getD (v + 1) 0)).drop
        ((transposeIndex g).getD v 0) := by
    unfold Graph.transpose Graph.edgesFrom
    rw [List.getD_eq_getElem _ _ (by
      rw [List.length_map, List.length_range]; exact hv)]
    rw [List.getElem_map, List.getElem_range]
  rw [hedges]
  apply slice_eq_of_pointwise
  · rw [hti v (Nat.le_of_lt hv), hti (v + 1) hv]
    exact keysBelow_mono _ (Nat.le_succ v)
  · show (transposeIndex g).getD (v + 1) 0 ≤ (transposeValues g).length
    unfold transposeValues
    rw [hlen, hti (v + 1) hv, ← keysBelow_top hkeys]
    exact keysBelow_mono _ hv
  · show ((g.flatEdges.filter (fun e => e.2 = v)).map Prod.fst).length = _
    rw [hti v (Nat.le_of_lt hv), hti (v + 1) hv, keysBelow_succ,
      Nat.add_sub_cancel_left, List.length_map]
    show (g.flatEdges.filter (fun e => e.2 = v)).length = cntKey (transposePairs g) v
    unfold cntKey transposePairs
    rw [List.filter_map, List.length_map]
    rfl
  · intro j hj
    have hjcnt : j < cntKey (transposePairs g) v := by
      rw [hti v (Nat.le_of_lt hv), hti (v + 1) hv, keysBelow_succ,
        Nat.add_sub_cancel_left] at hj
      exact hj
    have := hdata v hv j hjcnt
    show (transposeValues g).getD _ PLACEHOLDER = _
    unfold transposeValues
    rw [this]
    have hmapeq : ((transposePairs g).filter (fun p => p.1 = v)).map Prod.snd =
        (g.flatEdges.filter (fun e => e.2 = v)).map Prod.fst := by
      unfold transposePairs
      rw [List.filter_map, List.map_map]
      rfl
    rw [hmapeq]

theorem transpose_numVerts (g : Graph) :
    (g.transpose).numVerts = g.numVerts := by
  unfold Graph.transpose Graph.numVerts
  rw [List.length_map, List.length_range]

theorem transpose_hasEdge (g : Graph) (hwf : g.wellFormed) (f t : Nat) :
    (g.transpose).hasEdge t f ↔ g.hasEdge f t := by
  by_cases ht : t < g.numVerts
  · unfold Graph.hasEdge
    rw [transpose_edgesFrom g hwf ht]
    constructor
    · intro h
      rw [List.mem_map] at h
      obtain ⟨e, he, hef⟩ := h
      rw [List.mem_filter] at he
      obtain ⟨hmem, hev⟩ := he
      simp only [decide_eq_true_eq] at hev
      have : e = (f, t) := by
        obtain ⟨e1, e2⟩ := e
        simp only at hef hev
        rw [hef, hev]
      rw [this] at hmem
      exact mem_flatEdges.mp hmem
    · intro h
      rw [List.mem_map]
      refine ⟨(f, t), ?_, rfl⟩
      rw [List.mem_filter]
      exact ⟨mem_flatEdges.mpr h, by simp⟩
  · constructor
    · intro h
      exfalso
      have hne : (g.transpose).edgesFrom t ≠ [] := List.ne_nil_of_mem h
      have := lt_of_edgesFrom_ne_nil hne
      rw [transpose_numVerts] at this
      exact ht this
    · intro h
      exact absurd (edgesFrom_lt g hwf h) ht

theorem transpose_wellFormed (g : Graph) (hwf : g.wellFormed) :
    (g.transpose).wellFormed := by
  intro l hl x hx
  unfold Graph.transpose at hl
  rw [List.mem_map] at hl
  obtain ⟨v, hv, hvl⟩ := hl
  rw [List.mem_range] at hv
  have hedge : (g.transpose).hasEdge v x := by
    show x ∈ (g.transpose).edgesFrom v
    unfold Graph.transpose Graph.edgesFrom
    rw [List.getD_eq_getElem _ _ (by
      rw [List.length_map, List.length_range]; exact hv),
      List.getElem_map, List.getElem_range]
    rw [← hvl] at hx
    exact hx
  rw [transpose_hasEdge g hwf x v] at hedge
  have hxlt : x < g.numVerts := lt_of_edgesFrom_ne_nil (List.ne_nil_of_mem hedge)
  show x < (g.transpose).adj.length
  have h2 := transpose_numVerts g
  unfold Graph.numVerts at h2 hxlt
  omega

/-- C9: the transpose contains the edge `(t, f)` exactly when the graph
contains `(f, t)`; transposing twice preserves the vertex count and, for
every vertex, the out-neighbor set (not necessarily the order). -/
theorem transpose_involutive_setwise (g : Graph) (hwf : g.wellFormed) :
    (∀ f t, (g.transpose).hasEdge t f ↔ g.hasEdge f t) ∧
    (g.transpose.transpose).numVerts = g.numVerts ∧
    (∀ v, ((g.transpose.transpose).edgesFrom v).toFinset =
      (g.edgesFrom v).toFinset) := by
  refine ⟨transpose_hasEdge g hwf, ?_, ?_⟩
  · rw [transpose_numVerts, transpose_numVerts]
  · intro v
    ext t
    rw [List.mem_toFinset, List.mem_toFinset]
    have h1 : t ∈ (g.transpose.transpose).edgesFrom v ↔
        (g.transpose.transpose).hasEdge v t := Iff.rfl
    have h2 : t ∈ g.edgesFrom v ↔ g.hasEdge v t := Iff.rfl
    rw [h1, h2, transpose_hasEdge (g.transpose) (transpose_wellFormed g hwf),
      transpose_hasEdge g hwf]

/-- Witness: `transpose_involutive_setwise` on a small concrete graph. -/
theorem transpose_involutive_setwise_witness :
    (∀ f t, (Graph.transpose ⟨[[1], [2, 0], []]⟩).hasEdge t f ↔
      Graph.hasEdge ⟨[[1], [2, 0], []]⟩ f t) ∧
    ((Graph.transpose (Graph.transpose ⟨[[1], [2, 0], []]⟩)).numVerts =
      Graph.numVerts ⟨[[1], [2, 0], []]⟩) ∧
    (∀ v, ((Graph.transpose
        (Graph.transpose ⟨[[1], [2, 0], []]⟩)).edgesFrom v).toFinset =
      (Graph.edgesFrom ⟨[[1], [2, 0], []]⟩ v).toFinset) :=
  transpose_involutive_setwise _ (by decide)

/-- C5 is violated by the code: on the graph with edges
`0→1, 2→3, 4→5, 4→2, 5→0` (weakly connected — one component), step 1
records `alias[2] = 1` for the edge `4→2` and then overwrites it with
`alias[2] = 0` for the edge `5→0`, because vertices keep their stale
provisional id.  The earlier union is lost: vertices 2 and 4 end in
different subgraphs although edge `4 -> 2` connects them directly. -/
theorem find_disjoint_subgraphs_not_weak_components :
    Graph.wellFormed ⟨[[1], [], [3], [], [5, 2], [0]]⟩ ∧
    WeaklyConnected ⟨[[1], [], [3], [], [5, 2], [0]]⟩ 2 4 ∧
    find_disjoint_subgraphs ⟨[[1], [], [3], [], [5, 2], [0]]⟩ =
      ⟨[[0, 1, 4, 5], [2, 3]]⟩ ∧
    (disjointVGraph ⟨[[1], [], [3], [], [5, 2], [0]]⟩).getD 2 none = some 1 ∧
    (disjointVGraph ⟨[[1], [], [3], [], [5, 2], [0]]⟩).getD 4 none = some 0 :=
  ⟨by decide,
   Relation.ReflTransGen.single (Or.inr (by decide)),
   by decide, by decide, by decide⟩

theorem getD_set_self_g {α : Type} {l : List α} {i : Nat} {v d : α}
    (h : i < l.length) : (l.set i v).getD i d = v := by
  rw [List.getD_eq_getElem?_getD, List.getElem?_set_self',
    List.getElem?_eq_getElem h]
  rfl

theorem getD_set_ne_g {α : Type} {l : List α} {i j : Nat} {v d : α}
    (hne : i ≠ j) : (l.set i v).getD j d = l.getD j d := by
  rw [List.getD_eq_getElem?_getD, List.getElem?_set_ne hne,
    ← List.getD_eq_getElem?_getD]

theorem getD_replicate_g {α : Type} {n i : Nat} {a d : α} :
    (List.replicate n a).getD i d = if i < n then a else d := by
  rw [List.getD_eq_getElem?_getD, List.getElem?_replicate]
  split <;> rfl

theorem getD_append_tail {al : List Nat} {j n : Nat} :
    (al ++ [n]).getD j j =
      if j < al.length then al.getD j j
      else if j = al.length then n else j := by
  by_cases h1 : j < al.length
  · rw [if_pos h1, List.getD_append _ _ _ _ h1]
  · rw [if_neg h1, List.getD_append_right _ _ _ _ (by omega)]
    by_cases h2 : j = al.length
    · rw [if_pos h2]
      have : j - al.length = 0 := by omega
      rw [this]
      rfl
    · rw [if_neg h2]
      have : j - al.length ≥ 1 := by omega
      match hj : j - al.length, this with
      | m + 1, _ => rfl

/-- Invariant of step 1 of `find_disjoint_subgraphs`: lengths are stable,
every assigned provisional id is in range, alias entries never increase,
and a vertex is assigned iff some processed edge touches it. -/
theorem disjointPhase1_invariant (g : Graph) (hwf : g.wellFormed) :
    ∀ (todo done : List (Nat × Nat)) (vG : List (Option Nat)) (al : List Nat),
      g.flatEdges = done ++ todo →
      vG.length = g.numVerts →
      (∀ v pds, vG.getD v none = some pds → pds < al.length) →
      (∀ j, al.getD j j ≤ j) →
      (∀ v, vG.getD v none ≠ none ↔ ∃ e ∈ done, e.1 = v ∨ e.2 = v) →
      (todo.foldl disjointStep (vG, al)).1.length = g.numVerts ∧
      (∀ v pds, (todo.foldl disjointStep (vG, al)).1.getD v none = some pds →
        pds < (todo.foldl disjointStep (vG, al)).2.length) ∧
      (∀ j, (todo.foldl disjointStep (vG, al)).2.getD j j ≤ j) ∧
      (∀ v, (todo.foldl disjointStep (vG, al)).1.getD v none ≠ none ↔
        ∃ e ∈ g.flatEdges, e.1 = v ∨ e.2 = v) := by
  intro todo
  induction todo with
  | nil =>
    intro done vG al hsplit h1 h2 h3 h4
    rw [List.append_nil] at hsplit
    subst hsplit
    exact ⟨h1, h2, h3, h4⟩
  | cons e todo' ih =>
    obtain ⟨a, b⟩ := e
    intro done vG al hsplit h1 h2 h3 h4
    have hmem : (a, b) ∈ g.flatEdges := by rw [hsplit]; simp
    have hedge : g.hasEdge a b := mem_flatEdges.mp hmem
    have halt : a < g.numVerts := lt_of_edgesFrom_ne_nil (List.ne_nil_of_mem hedge)
    have hblt : b < g.numVerts := edgesFrom_lt g hwf hedge
    have hsplit' : g.flatEdges = (done ++ [(a, b)]) ++ todo' := by
      rw [hsplit, List.append_assoc]; rfl
    have htouch : ∀ v, (∃ e ∈ done ++ [(a, b)], e.1 = v ∨ e.2 = v) ↔
        ((∃ e ∈ done, e.1 = v ∨ e.2 = v) ∨ v = a ∨ v = b) := by
      intro v
      constructor
      · rintro ⟨e, he, hev⟩
        rcases List.mem_append.mp he with he | he
        · exact Or.inl ⟨e, he, hev⟩
        · simp only [List.mem_singleton] at he
          subst he
          rcases hev with hev | hev
          · exact Or.inr (Or.inl hev.symm)
          · exact Or.inr (Or.inr hev.symm)
      · rintro (⟨e, he, hev⟩ | hv | hv)
        · exact ⟨e, List.mem_append_left _ he, hev⟩
        · exact ⟨(a, b), List.mem_append_right _ (by simp), Or.inl hv.symm⟩
        · exact ⟨(a, b), List.mem_append_right _ (by simp), Or.inr hv.symm⟩
    rw [List.foldl_cons]
    cases hva : vG.getD a none with
    | none =>
      cases hvb : vG.getD b none with
      | none =>
        -- both unassigned: allocate a fresh id for both endpoints
        have hstep : disjointStep (vG, al) (a, b) =
            ((vG.set a (some al.length)).set b (some al.length),
              al ++ [al.length]) := by
          unfold disjointStep
          rw [show (vG, al).1 = vG from rfl, hva, hvb]
        rw [hstep]
        apply ih (done ++ [(a, b)]) _ _ hsplit'
        · rw [List.length_set, List.length_set]; exact h1
        · intro v pds hv
          rw [List.length_append, List.length_singleton]
          by_cases hvb' : v = b
          · subst hvb'
            rw [getD_set_self_g (by rw [List.length_set, h1]; exact hblt)] at hv
            have : pds = al.length := by
              have := Option.some.inj hv
              omega
            omega
          · rw [getD_set_ne_g (fun hc => hvb' hc.symm)] at hv
            by_cases hva' : v = a
            · subst hva'
              rw [getD_set_self_g (by rw [h1]; exact halt)] at hv
              have : pds = al.length := by
                have := Option.some.inj hv
                omega
              omega
            · rw [getD_set_ne_g (fun hc => hva' hc.symm)] at hv
              have := h2 v pds hv
              omega
        · intro j
          rw [getD_append_tail]
          split
          · exact h3 j
          · split <;> omega
        · intro v
          rw [htouch v]
          by_cases hvb' : v = b
          · subst hvb'
            rw [getD_set_self_g (by rw [List.length_set, h1]; exact hblt)]
            simp
          · rw [getD_set_ne_g (fun hc => hvb' hc.symm)]
            by_cases hva' : v = a
            · subst hva'
              rw [getD_set_self_g (by rw [h1]; exact halt)]
              simp
            · rw [getD_set_ne_g (fun hc => hva' hc.symm), h4 v]
              constructor
              · exact Or.inl
              · rintro (h | h | h)
                · exact h
                · exact absurd h hva'
                · exact absurd h hvb'
      | some gTo =>
        -- only the target is assigned: propagate its id to the source
        have hstep : disjointStep (vG, al) (a, b) =
            (vG.set a (some gTo), al) := by
          unfold disjointStep
          rw [show (vG, al).1 = vG from rfl, hva, hvb]
        rw [hstep]
        apply ih (done ++ [(a, b)]) _ _ hsplit'
        · rw [List.length_set]; exact h1
        · intro v pds hv
          by_cases hva' : v = a
          · subst hva'
            rw [getD_set_self_g (by rw [h1]; exact halt)] at hv
            have hpds : pds = gTo := (Option.some.inj hv).symm
            subst hpds
            exact h2 b pds hvb
          · rw [getD_set_ne_g (fun hc => hva' hc.symm)] at hv
            exact h2 v pds hv
        · exact h3
        · intro v
          rw [htouch v]
          by_cases hva' : v = a
          · subst hva'
            rw [getD_set_self_g (by rw [h1]; exact halt)]
            simp
          · rw [getD_set_ne_g (fun hc => hva' hc.symm), h4 v]
            constructor
            · exact Or.inl
            · rintro (h | h | h)
              · exact h
              · exact absurd h hva'
              · rw [h]
                exact (h4 b).mp (by rw [hvb]; simp)
    | some gFrom =>
      cases hvb : vG.getD b none with
      | none =>
        -- only the source is assigned: propagate its id to the target
        have hstep : disjointStep (vG, al) (a, b) =
            (vG.set b (some gFrom), al) := by
          unfold disjointStep
          rw [show (vG, al).1 = vG from rfl, hva, hvb]
        rw [hstep]
        apply ih (done ++ [(a, b)]) _ _ hsplit'
        · rw [List.length_set]; exact h1
        · intro v pds hv
          by_cases hvb' : v = b
          · subst hvb'
            rw [getD_set_self_g (by rw [h1]; exact hblt)] at hv
            have hpds : pds = gFrom := (Option.some.inj hv).symm
            subst hpds
            exact h2 a pds hva
          · rw [getD_set_ne_g (fun hc => hvb' hc.symm)] at hv
            exact h2 v pds hv
        · exact h3
        · intro v
          rw [htouch v]
          by_cases hvb' : v = b
          · subst hvb'
            rw [getD_set_self_g (by rw [h1]; exact hblt)]
            simp
          · rw [getD_set_ne_g (fun hc => hvb' hc.symm), h4 v]
            constructor
            · exact Or.inl
            · rintro (h | h | h)
              · exact h
              · rw [h]
                exact (h4 a).mp (by rw [hva]; simp)
              · exact absurd h hvb'
      | some gTo =>
        -- both assigned: possibly record a connection in the alias table
        have hstep0 : disjointStep (vG, al) (a, b) =
            if gFrom = gTo then (vG, al)
            else (vG, al.set (max gFrom gTo) (min gFrom gTo)) := by
          unfold disjointStep
          rw [show (vG, al).1 = vG from rfl, hva, hvb]
        rw [hstep0]
        by_cases hgeq : gFrom = gTo
        · rw [if_pos hgeq]
          apply ih (done ++ [(a, b)]) _ _ hsplit' h1 h2 h3
          intro v
          rw [htouch v, h4 v]
          constructor
          · exact Or.inl
          · rintro (h | h | h)
            · exact h
            · rw [h]
              exact (h4 a).mp (by rw [hva]; simp)
            · rw [h]
              exact (h4 b).mp (by rw [hvb]; simp)
        · rw [if_neg hgeq]
          apply ih (done ++ [(a, b)]) _ _ hsplit' h1
          · intro v pds hv
            rw [List.length_set]
            exact h2 v pds hv
          · intro j
            by_cases hj : j = max gFrom gTo
            · subst hj
              have hmax : max gFrom gTo < al.length := by
                have hg1 := h2 a gFrom hva
                have hg2 := h2 b gTo hvb
                omega
              rw [getD_set_self_g hmax]
              omega
            · rw [getD_set_ne_g (fun hc => hj hc.symm)]
              exact h3 j
          · intro v
            rw [htouch v, h4 v]
            constructor
            · exact Or.inl
            · rintro (h | h | h)
              · exact h
              · rw [h]
                exact (h4 a).mp (by rw [hva]; simp)
              · rw [h]
                exact (h4 b).mp (by rw [hvb]; simp)

/-- The chain-following loop terminates on a fixpoint of the alias table
that is no larger than the starting id, provided alias entries never
increase (the phase-1 invariant). -/
theorem chase_spec (al : List Nat) (hle : ∀ j, al.getD j j ≤ j) :
    ∀ (fuel leader : Nat), leader ≤ fuel →
      al.getD (chase al fuel leader) (chase al fuel leader) =
        chase al fuel leader ∧
      chase al fuel leader ≤ leader := by
  intro fuel
  induction fuel with
  | zero =>
    intro leader hl
    have h0 : leader = 0 := by omega
    subst h0
    have h00 : al.getD 0 0 = 0 := by have := hle 0; omega
    exact ⟨h00, Nat.le_refl 0⟩
  | succ fuel ih =>
    intro leader hl
    by_cases hnx : al.getD leader leader = leader
    · have hc : chase al (fuel + 1) leader = leader := by
        show (if al.getD leader leader = leader then leader
          else chase al fuel (al.getD leader leader)) = leader
        rw [if_pos hnx]
      rw [hc]
      exact ⟨hnx, Nat.le_refl _⟩
    · have hlt : al.getD leader leader < leader :=
        Nat.lt_of_le_of_ne (hle leader) hnx
      have hc : chase al (fuel + 1) leader =
          chase al fuel (al.getD leader leader) := by
        show (if al.getD leader leader = leader then leader
          else chase al fuel (al.getD leader leader)) = _
        rw [if_neg hnx]
      rw [hc]
      obtain ⟨h1, h2⟩ := ih (al.getD leader leader) (by omega)
      exact ⟨h1, by omega⟩

/-- Invariant of step 2 of `find_disjoint_subgraphs`: after resolving ids
`0, …, i - 1`, every resolved id points (through `graph_alias`) at a root
that the `remap` table sends to a final subgraph number below
`num_subgraphs`. -/
theorem resolveGo_invariant :
    ∀ (k i len : Nat) (al : List Nat) (remap : List (Option Nat)) (num : Nat),
      i + k = len →
      al.length = len →
      remap.length = len →
      (∀ j, al.getD j j ≤ j) →
      (∀ j, j < i → ∃ m, m < num ∧
        remap.getD (al.getD j j) none = some m) →
      ((List.range' i k).foldl resolveStep (al, remap, num)).1.length = len ∧
      ((List.range' i k).foldl resolveStep (al, remap, num)).2.1.length = len ∧
      (∀ j, j < len → ∃ m,
        m < ((List.range' i k).foldl resolveStep (al, remap, num)).2.2 ∧
        ((List.range' i k).foldl resolveStep (al, remap, num)).2.1.getD
          (((List.range' i k).foldl resolveStep (al, remap, num)).1.getD j j)
          none = some m) := by
  intro k
  induction k with
  | zero =>
    intro i len al remap num hik h1 h2 h3 h4
    exact ⟨h1, h2, fun j hj => h4 j (by omega)⟩
  | succ k ih =>
    intro i len al remap num hik h1 h2 h3 h4
    have hilen : i < len := by omega
    obtain ⟨hfix, hlead⟩ := chase_spec al h3 (i + 1) i (Nat.le_succ i)
    have hrange : (List.range' i (k + 1)).foldl resolveStep (al, remap, num) =
        (List.range' (i + 1) k).foldl resolveStep
          (resolveStep (al, remap, num) i) := rfl
    rw [hrange]
    by_cases hil : i = chase al (i + 1) i
    · have hstep : resolveStep (al, remap, num) i =
          (al.set i (chase al (i + 1) i), remap.set i (some num), num + 1) := by
        show (if i = chase al (i + 1) i then
            (al.set i (chase al (i + 1) i), remap.set i (some num), num + 1)
          else (al.set i (chase al (i + 1) i), remap, num)) = _
        rw [if_pos hil]
      rw [hstep]
      apply ih (i + 1) len _ _ _ (by omega)
      · rw [List.length_set]; exact h1
      · rw [List.length_set]; exact h2
      · intro j
        by_cases hji : j = i
        · subst hji
          rw [getD_set_self_g (show j < al.length by omega)]
          omega
        · rw [getD_set_ne_g (fun hc => hji hc.symm)]
          exact h3 j
      · intro j hj
        by_cases hji : j = i
        · subst hji
          refine ⟨num, by omega, ?_⟩
          rw [getD_set_self_g (show j < al.length by omega), ← hil,
            getD_set_self_g (show j < remap.length by omega)]
        · have hjlt : j < i := by omega
          obtain ⟨m, hm, hrm⟩ := h4 j hjlt
          refine ⟨m, by omega, ?_⟩
          rw [getD_set_ne_g (fun hc => hji hc.symm)]
          have hne : i ≠ al.getD j j := by
            have := h3 j; omega
          rw [getD_set_ne_g hne]
          exact hrm
    · have hstep : resolveStep (al, remap, num) i =
          (al.set i (chase al (i + 1) i), remap, num) := by
        show (if i = chase al (i + 1) i then
            (al.set i (chase al (i + 1) i), remap.set i (some num), num + 1)
          else (al.set i (chase al (i + 1) i), remap, num)) = _
        rw [if_neg hil]
      rw [hstep]
      apply ih (i + 1) len _ _ _ (by omega)
        (by rw [List.length_set]; exact h1) h2
      · intro j
        by_cases hji : j = i
        · subst hji
          rw [getD_set_self_g (show j < al.length by omega)]
          omega
        · rw [getD_set_ne_g (fun hc => hji hc.symm)]
          exact h3 j
      · intro j hj
        by_cases hji : j = i
        · subst hji
          have hldlt : chase al (j + 1) j < j :=
            Nat.lt_of_le_of_ne hlead (fun hc => hil hc.symm)
          obtain ⟨m, hm, hrm⟩ := h4 (chase al (j + 1) j) hldlt
          refine ⟨m, hm, ?_⟩
          rw [getD_set_self_g (show j < al.length by omega)]
          rw [hfix] at hrm
          exact hrm
        · have hjlt : j < i := by omega
          obtain ⟨m, hm, hrm⟩ := h4 j hjlt
          refine ⟨m, hm, ?_⟩
          rw [getD_set_ne_g (fun hc => hji hc.symm)]
          exact hrm

/-- Step 2, summarized: lengths are preserved and every provisional id is
sent by `remap ∘ graph_alias` to some final number below `num_subgraphs`. -/
theorem resolveAll_spec (al0 : List Nat) (hle : ∀ j, al0.getD j j ≤ j) :
    (resolveAll al0).1.length = al0.length ∧
    (resolveAll al0).2.1.length = al0.length ∧
    (∀ j, j < al0.length → ∃ m, m < (resolveAll al0).2.2 ∧
      (resolveAll al0).2.1.getD ((resolveAll al0).1.getD j j) none = some m) := by
  have h := resolveGo_invariant al0.length 0 al0.length al0
    (List.replicate al0.length none) 0 (by omega) rfl
    (List.length_replicate _ _) hle (fun j hj => absurd hj (Nat.not_lt_zero j))
  have heq : resolveAll al0 = (List.range' 0 al0.length).foldl resolveStep
      (al0, List.replicate al0.length none, 0) := by
    unfold resolveAll
    rw [List.range_eq_range' al0.length]
  rw [heq]
  exact h

theorem incident_iff_flatEdges {g : Graph} {v : Nat} :
    g.incident v ↔ ∃ e ∈ g.flatEdges, e.1 = v ∨ e.2 = v := by
  constructor
  · rintro (⟨t, ht⟩ | ⟨f, hf⟩)
    · exact ⟨(v, t), mem_flatEdges.mpr ht, Or.inl rfl⟩
    · exact ⟨(f, v), mem_flatEdges.mpr hf, Or.inr rfl⟩
  · rintro ⟨⟨a, b⟩, he, (h | h)⟩
    · subst h
      exact Or.inl ⟨b, mem_flatEdges.mp he⟩
    · subst h
      exact Or.inr ⟨a, mem_flatEdges.mp he⟩

/-- Step 1, summarized at the initial state: lengths, in-range provisional
ids, non-increasing alias entries, and assigned = incident. -/
theorem disjointPhase1_spec (g : Graph) (hwf : g.wellFormed) :
    (disjointPhase1 g).1.length = g.numVerts ∧
    (∀ v pds, (disjointPhase1 g).1.getD v none = some pds →
      pds < (disjointPhase1 g).2.length) ∧
    (∀ j, (disjointPhase1 g).2.getD j j ≤ j) ∧
    (∀ v, (disjointPhase1 g).1.getD v none ≠ none ↔ g.incident v) := by
  have h := disjointPhase1_invariant g hwf g.flatEdges []
    (List.replicate g.numVerts none) [] rfl (List.length_replicate _ _)
    (fun v pds hv => by
      rw [getD_replicate_g] at hv
      split at hv <;> exact Option.noConfusion hv)
    (fun j => Nat.le_refl j)
    (fun v => by
      constructor
      · intro hv
        exfalso
        apply hv
        rw [getD_replicate_g]
        split <;> rfl
      · rintro ⟨e, he, _⟩
        exact absurd he (List.not_mem_nil e))
  obtain ⟨h1, h2, h3, h4⟩ := h
  exact ⟨h1, h2, h3, fun v => (h4 v).trans incident_iff_flatEdges.symm⟩

theorem getD_map_none {α β : Type} (f : Option α → Option β)
    (hf : f none = none) (l : List (Option α)) (v : Nat) :
    (l.map f).getD v none = f (l.getD v none) := by
  by_cases hv : v < l.length
  · rw [List.getD_eq_getElem _ _ (by rw [List.length_map]; exact hv),
      List.getD_eq_getElem _ _ hv, List.getElem_map]
  · rw [List.getD_eq_default _ _ (by rw [List.length_map]; omega),
      List.getD_eq_default _ _ (by omega), hf]

theorem disjointVGraph_length (g : Graph) (hwf : g.wellFormed) :
    (disjointVGraph g).length = g.numVerts := by
  unfold disjointVGraph remapVGraph
  rw [List.length_map]
  exact (disjointPhase1_spec g hwf).1

/-- The final `v_graph` table: a vertex is assigned iff it is incident to
some edge, and assigned numbers are below `num_subgraphs`. -/
theorem disjointVGraph_spec (g : Graph) (hwf : g.wellFormed) :
    (∀ v, (disjointVGraph g).getD v none ≠ none ↔ g.incident v) ∧
    (∀ v m, (disjointVGraph g).getD v none = some m → m < disjointNum g) := by
  obtain ⟨h1, h2, h3, h4⟩ := disjointPhase1_spec g hwf
  obtain ⟨r1, r2, r3⟩ := resolveAll_spec (disjointPhase1 g).2 h3
  have hnone : ∀ v, (disjointPhase1 g).1.getD v none = none →
      (disjointVGraph g).getD v none = none := by
    intro v hv
    unfold disjointVGraph remapVGraph
    rw [getD_map_none _ rfl _ v, hv]
  have hchar : ∀ v pds, (disjointPhase1 g).1.getD v none = some pds →
      ∃ m, m < disjointNum g ∧ (disjointVGraph g).getD v none = some m := by
    intro v pds hv
    have hlt : pds < (disjointPhase1 g).2.length := h2 v pds hv
    obtain ⟨m, hm, hrm⟩ := r3 pds hlt
    refine ⟨m, hm, ?_⟩
    unfold disjointVGraph remapVGraph
    rw [getD_map_none _ rfl _ v, hv]
    show (resolveAll (disjointPhase1 g).2).2.1.getD
      ((resolveAll (disjointPhase1 g).2).1.getD pds 0) none = some m
    have hgd : (resolveAll (disjointPhase1 g).2).1.getD pds 0 =
        (resolveAll (disjointPhase1 g).2).1.getD pds pds := by
      rw [List.getD_eq_getElem _ _ (by rw [r1]; exact hlt),
        List.getD_eq_getElem _ _ (by rw [r1]; exact hlt)]
    rw [hgd]
    exact hrm
  constructor
  · intro v
    rw [← h4 v]
    constructor
    · intro hdv
      intro hp1
      exact hdv (hnone v hp1)
    · intro hp1
      obtain ⟨pds, hpds⟩ := Option.ne_none_iff_exists'.mp hp1
      obtain ⟨m, hm, hdm⟩ := hchar v pds hpds
      rw [hdm]
      exact Option.noConfusion
  · intro v m hv
    cases hpv : (disjointPhase1 g).1.getD v none with
    | none => rw [hnone v hpv] at hv; exact Option.noConfusion hv
    | some pds =>
      obtain ⟨m', hm', hdm⟩ := hchar v pds hpv
      rw [hdm] at hv
      have : m' = m := Option.some.inj hv
      omega

theorem disjointVGraph_vals (g : Graph) (hwf : g.wellFormed) :
    ∀ m, some m ∈ disjointVGraph g → m < disjointNum g := by
  intro m hm
  obtain ⟨i, hi, hget⟩ := List.getElem_of_mem hm
  apply (disjointVGraph_spec g hwf).2 i m
  rw [List.getD_eq_getElem _ _ hi, hget]

theorem prefixSums_length : ∀ (cs : List Nat) (s : Nat),
    (prefixSums cs s).length = cs.length + 1 := by
  intro cs
  induction cs with
  | nil => intro s; rfl
  | cons c cs ih =>
    intro s
    show (prefixSums cs (s + c)).length + 1 = _
    rw [ih]
    rfl

theorem prefixSums_getD : ∀ (cs : List Nat) (s k : Nat), k ≤ cs.length →
    (prefixSums cs s).getD k 0 = s + (cs.take k).sum := by
  intro cs
  induction cs with
  | nil =>
    intro s k hk
    have hk0 : k = 0 := by simpa using hk
    subst hk0
    show s = s + (List.take 0 ([] : List Nat)).sum
    simp
  | cons c cs ih =>
    intro s k hk
    cases k with
    | zero =>
      show s = s + (List.take 0 (c :: cs)).sum
      simp
    | succ k =>
      show (prefixSums cs (s + c)).getD k 0 = _
      rw [ih (s + c) k (by simpa using hk), List.take_succ_cons, List.sum_cons]
      omega

theorem sum_take_eq_range (cs : List Nat) :
    ∀ k, k ≤ cs.length →
      (cs.take k).sum = ((List.range k).map (fun j => cs.getD j 0)).sum := by
  intro k
  induction k with
  | zero => intro _; rfl
  | succ k ih =>
    intro hk
    rw [List.take_succ, List.range_succ, List.map_append, List.sum_append,
      ih (by omega), List.getElem?_eq_getElem (show k < cs.length by omega)]
    simp [List.getD_eq_getElem?_getD,
      List.getElem?_eq_getElem (show k < cs.length by omega)]

theorem keysBelow_eq_sum (pairs : List (Nat × Nat)) (cs : List Nat)
    (hcs : ∀ j, j < cs.length → cs.getD j 0 = cntKey pairs j) :
    ∀ k, k ≤ cs.length →
      ((List.range k).map (fun j => cs.getD j 0)).sum = keysBelow pairs k := by
  intro k
  induction k with
  | zero => intro _; rw [keysBelow_zero]; rfl
  | succ k ih =>
    intro hk
    rw [List.range_succ, List.map_append, List.sum_append, ih (by omega),
      keysBelow_succ]
    simp only [List.map_cons, List.map_nil, List.sum_cons, List.sum_nil]
    rw [hcs k (by omega)]
    omega

theorem vertsPerSubgraph_length (vG : List (Option Nat)) (num : Nat) :
    (vertsPerSubgraph vG num).length = num := by
  have hgo : ∀ (l : List (Option Nat)) (A : List Nat),
      (l.foldl (fun counts o => match o with
        | none => counts
        | some gg => counts.set gg (counts.getD gg 0 + 1)) A).length =
        A.length := by
    intro l
    induction l with
    | nil => intro A; rfl
    | cons o rest ih =>
      intro A
      cases o with
      | none =>
        show (rest.foldl _ A).length = A.length
        exact ih A
      | some gg =>
        show (rest.foldl _ (A.set gg (A.getD gg 0 + 1))).length = A.length
        rw [ih, List.length_set]
  have h := hgo vG (List.replicate num 0)
  rw [List.length_replicate] at h
  exact h

theorem vertsPerSubgraph_getD (vG : List (Option Nat)) (num : Nat)
    (hvals : ∀ m, some m ∈ vG → m < num) (k : Nat) (hk : k < num) :
    (vertsPerSubgraph vG num).getD k 0 =
      (vG.filter (fun o => o = some k)).length := by
  have hgo : ∀ (l : List (Option Nat)) (A : List Nat),
      (∀ m, some m ∈ l → m < A.length) →
      (l.foldl (fun counts o => match o with
        | none => counts
        | some gg => counts.set gg (counts.getD gg 0 + 1)) A).getD k 0 =
        A.getD k 0 + (l.filter (fun o => o = some k)).length := by
    intro l
    induction l with
    | nil => intro A _; simp
    | cons o rest ih =>
      intro A h
      cases o with
      | none =>
        show (rest.foldl _ A).getD k 0 = _
        rw [ih A (fun m hm => h m (List.mem_cons_of_mem _ hm)),
          List.filter_cons,
          if_neg (show ¬(decide ((none : Option Nat) = some k) = true) by simp)]
      | some gg =>
        have hgg : gg < A.length := h gg (List.mem_cons_self _ _)
        show (rest.foldl _ (A.set gg (A.getD gg 0 + 1))).getD k 0 = _
        rw [ih _ (fun m hm => by
          rw [List.length_set]
          exact h m (List.mem_cons_of_mem _ hm)), List.filter_cons]
        by_cases hgk : gg = k
        · subst hgk
          rw [getD_set_self_d hgg,
            if_pos (show decide ((some gg : Option Nat) = some gg) = true by
              simp),
            List.length_cons]
          omega
        · rw [getD_set_ne_d hgk,
            if_neg (show ¬(decide ((some gg : Option Nat) = some k) = true) by
              simp [hgk])]
  have h := hgo vG (List.replicate num 0) (fun m hm => by
    rw [List.length_replicate]; exact hvals m hm)
  rw [getD_replicate_g, if_pos hk, Nat.zero_add] at h
  exact h

/-- A `(subgraph, vertex)` pair is emitted by the scatter of step 5 exactly
when the final `v_graph` assigns that subgraph to that vertex. -/
theorem mem_disjointPairs (g : Graph) {gg v : Nat} :
    (gg, v) ∈ disjointPairs g ↔
      (disjointVGraph g).getD v none = some gg := by
  unfold disjointPairs
  rw [List.mem_filterMap]
  constructor
  · rintro ⟨⟨i, o⟩, hp, hfn⟩
    rw [Option.map_eq_some'] at hfn
    obtain ⟨a, ha, hav⟩ := hfn
    subst ha
    have h1 : a = gg := congrArg Prod.fst hav
    have h2 : i = v := congrArg Prod.snd hav
    subst h1
    subst h2
    rw [List.mk_mem_enum_iff_getElem?] at hp
    rw [List.getD_eq_getElem?_getD, hp]
    rfl
  · intro hv
    have hvlt : v < (disjointVGraph g).length := by
      by_contra hge
      rw [List.getD_eq_default _ _ (by omega)] at hv
      exact Option.noConfusion hv
    have hget : (disjointVGraph g)[v]? = some (some gg) := by
      rw [List.getD_eq_getElem _ _ hvlt] at hv
      rw [List.getElem?_eq_getElem hvlt, hv]
    exact ⟨(v, some gg), List.mk_mem_enum_iff_getElem?.mpr hget, rfl⟩

/-- Every pair produced from `enumFrom n` carries a vertex id of at least
`n`. -/
theorem pairsOf_snd_ge :
    ∀ (l : List (Option Nat)) (n : Nat) (x : Nat × Nat),
      x ∈ (List.enumFrom n l).filterMap
        (fun p => p.2.map (fun g0 => (g0, p.1))) → n ≤ x.2 := by
  intro l
  induction l with
  | nil =>
    intro n x hx
    exact absurd hx (List.not_mem_nil x)
  | cons o tl ih =>
    intro n x hx
    cases o with
    | none =>
      have hx' : x ∈ (List.enumFrom (n + 1) tl).filterMap
          (fun p => p.2.map (fun g0 => (g0, p.1))) := hx
      have := ih (n + 1) x hx'
      omega
    | some gg =>
      have hx' : x ∈ (gg, n) :: (List.enumFrom (n + 1) tl).filterMap
          (fun p => p.2.map (fun g0 => (g0, p.1))) := hx
      rcases List.mem_cons.mp hx' with h | h
      · subst h
        exact Nat.le_refl n
      · have := ih (n + 1) x h
        omega

/-- The scatter of step 5 visits vertices in strictly ascending id order. -/
theorem pairsOf_snd_pairwise :
    ∀ (l : List (Option Nat)) (n : Nat),
      ((List.enumFrom n l).filterMap
        (fun p => p.2.map (fun g0 => (g0, p.1)))).Pairwise
        (fun p q : Nat × Nat => p.2 < q.2) := by
  intro l
  induction l with
  | nil => intro n; exact List.Pairwise.nil
  | cons o tl ih =>
    intro n
    cases o with
    | none =>
      show ((List.enumFrom (n + 1) tl).filterMap
        (fun p => p.2.map (fun g0 => (g0, p.1)))).Pairwise
        (fun p q : Nat × Nat => p.2 < q.2)
      exact ih (n + 1)
    | some gg =>
      show ((gg, n) :: (List.enumFrom (n + 1) tl).filterMap
        (fun p => p.2.map (fun g0 => (g0, p.1)))).Pairwise
        (fun p q : Nat × Nat => p.2 < q.2)
      refine List.Pairwise.cons ?_ (ih (n + 1))
      intro q hq
      have := pairsOf_snd_ge tl (n + 1) q hq
      show n < q.2
      omega

theorem disjointPairs_snd_pairwise (g : Graph) :
    (disjointPairs g).Pairwise (fun p q => p.2 < q.2) :=
  pairsOf_snd_pairwise (disjointVGraph g) 0

theorem cntKey_pairsOf :
    ∀ (l : List (Option Nat)) (n k : Nat),
      cntKey ((List.enumFrom n l).filterMap
        (fun p => p.2.map (fun g0 => (g0, p.1)))) k =
      (l.filter (fun o => o = some k)).length := by
  intro l
  induction l with
  | nil => intro n k; rfl
  | cons o tl ih =>
    intro n k
    cases o with
    | none =>
      have h1 : cntKey ((List.enumFrom n ((none : Option Nat) :: tl)).filterMap
          (fun p => p.2.map (fun g0 => (g0, p.1)))) k =
          cntKey ((List.enumFrom (n + 1) tl).filterMap
          (fun p => p.2.map (fun g0 => (g0, p.1)))) k := rfl
      rw [h1, ih (n + 1) k, List.filter_cons,
        if_neg (show ¬(decide ((none : Option Nat) = some k) = true) by simp)]
    | some gg =>
      have h1 : cntKey ((List.enumFrom n ((some gg : Option Nat) :: tl)).filterMap
          (fun p => p.2.map (fun g0 => (g0, p.1)))) k =
          cntKey ((gg, n) :: (List.enumFrom (n + 1) tl).filterMap
          (fun p => p.2.map (fun g0 => (g0, p.1)))) k := rfl
      rw [h1, List.filter_cons]
      unfold cntKey
      rw [List.filter_cons]
      have hrec := ih (n + 1) k
      unfold cntKey at hrec
      by_cases hgk : gg = k
      · rw [if_pos (show decide (((gg, n) : Nat × Nat).1 = k) = true by
            simp [hgk]),
          if_pos (show decide ((some gg : Option Nat) = some k) = true by
            simp [hgk]),
          List.length_cons, List.length_cons, hrec]
      · rw [if_neg (show ¬(decide (((gg, n) : Nat × Nat).1 = k) = true) by
            simp [hgk]),
          if_neg (show ¬(decide ((some gg : Option Nat) = some k) = true) by
            simp [hgk]),
          hrec]

theorem cntKey_disjointPairs (g : Graph) (k : Nat) :
    cntKey (disjointPairs g) k =
      ((disjointVGraph g).filter (fun o => o = some k)).length :=
  cntKey_pairsOf (disjointVGraph g) 0 k

theorem disjointPairs_keys (g : Graph) (hwf : g.wellFormed) :
    ∀ p ∈ disjointPairs g, p.1 < disjointNum g := by
  rintro ⟨gg, v⟩ hp
  rw [mem_disjointPairs] at hp
  exact (disjointVGraph_spec g hwf).2 v gg hp

/-- `output_index` holds, at key `k`, the number of emitted pairs whose
subgraph is below `k` (the prefix-count shape the scatter proof needs). -/
theorem disjointIndex_spec (g : Graph) (hwf : g.wellFormed) :
    ∀ k, k ≤ disjointNum g →
      (disjointIndex g).getD k 0 = keysBelow (disjointPairs g) k := by
  intro k hk
  have hlen : (vertsPerSubgraph (disjointVGraph g) (disjointNum g)).length =
      disjointNum g := vertsPerSubgraph_length _ _
  unfold disjointIndex
  rw [prefixSums_getD _ 0 k (by rw [hlen]; exact hk), Nat.zero_add,
    sum_take_eq_range _ k (by rw [hlen]; exact hk)]
  apply keysBelow_eq_sum
  · intro j hj
    rw [hlen] at hj
    rw [vertsPerSubgraph_getD _ _ (disjointVGraph_vals g hwf) j hj,
      cntKey_disjointPairs]
  · omega

/-- The scatter of step 5 fills the slice of every subgraph with exactly
the vertices assigned to it, in emission order. -/
theorem disjoint_slice (g : Graph) (hwf : g.wellFormed) {k : Nat}
    (hk : k < disjointNum g) :
    ((disjointValues g).take ((disjointIndex g).getD (k + 1) 0)).drop
        ((disjointIndex g).getD k 0) =
      ((disjointPairs g).filter (fun p => p.1 = k)).map Prod.snd := by
  have hkeys := disjointPairs_keys g hwf
  have hti := disjointIndex_spec g hwf
  obtain ⟨hlen, hdata⟩ := scatterGo_spec (disjointNum g) (disjointPairs g)
    hkeys (disjointIndex g) hti (disjointPairs g) []
    (List.replicate (disjointNum g) 0)
    (List.replicate (disjointPairs g).length PLACEHOLDER) rfl
    (List.length_replicate _ _) (List.length_replicate _ _)
    (fun k hk => by
      rw [List.getD_eq_getElem?_getD, List.getElem?_replicate]
      split <;> rfl)
    (fun k hk j hj => by
      unfold cntKey at hj
      simp at hj)
    (fun k hk j hj hjlt => by
      rw [List.getD_eq_getElem?_getD, List.getElem?_replicate]
      split <;> rfl)
  apply slice_eq_of_pointwise
  · rw [hti k (Nat.le_of_lt hk), hti (k + 1) hk]
    exact keysBelow_mono _ (Nat.le_succ k)
  · show (disjointIndex g).getD (k + 1) 0 ≤ (disjointValues g).length
    unfold disjointValues
    rw [hlen, hti (k + 1) hk, ← keysBelow_top hkeys]
    exact keysBelow_mono _ hk
  · rw [hti k (Nat.le_of_lt hk), hti (k + 1) hk, keysBelow_succ,
      Nat.add_sub_cancel_left, List.length_map]
    rfl
  · intro j hj
    have hjcnt : j < cntKey (disjointPairs g) k := by
      rw [hti k (Nat.le_of_lt hk), hti (k + 1) hk, keysBelow_succ,
        Nat.add_sub_cancel_left] at hj
      exact hj
    have := hdata k hk j hjcnt
    show (disjointValues g).getD _ PLACEHOLDER = _
    unfold disjointValues
    rw [this]

theorem find_disjoint_subgraphs_length (g : Graph) :
    (find_disjoint_subgraphs g).subgraphs.length = disjointNum g := by
  unfold find_disjoint_subgraphs
  dsimp only
  rw [List.length_map, List.length_range]

theorem find_disjoint_subgraphs_slice (g : Graph) (hwf : g.wellFormed)
    {k : Nat} (hk : k < disjointNum g) :
    (find_disjoint_subgraphs g).subgraphs.getD k [] =
      ((disjointPairs g).filter (fun p => p.1 = k)).map Prod.snd := by
  unfold find_disjoint_subgraphs
  dsimp only
  rw [List.getD_eq_getElem _ _ (by
      rw [List.length_map, List.length_range]; exact hk),
    List.getElem_map, List.getElem_range]
  exact disjoint_slice g hwf hk

theorem mem_slice_iff (pairs : List (Nat × Nat)) (k v : Nat) :
    v ∈ (pairs.filter (fun p => p.1 = k)).map Prod.snd ↔ (k, v) ∈ pairs := by
  rw [List.mem_map]
  constructor
  · rintro ⟨⟨a, b⟩, hp, hpv⟩
    rw [List.mem_filter] at hp
    obtain ⟨hmem, hfst⟩ := hp
    have ha : a = k := by simpa using hfst
    have hb : b = v := hpv
    subst ha
    subst hb
    exact hmem
  · intro hkv
    exact ⟨(k, v), List.mem_filter.mpr ⟨hkv, by simp⟩, rfl⟩

theorem mem_iff_getD {α : Type} (L : List α) (d : α) (x : α) :
    x ∈ L ↔ ∃ i, i < L.length ∧ L.getD i d = x := by
  constructor
  · intro hx
    obtain ⟨i, hi, hg⟩ := List.getElem_of_mem hx
    exact ⟨i, hi, by rw [List.getD_eq_getElem _ _ hi]; exact hg⟩
  · rintro ⟨i, hi, hgd⟩
    rw [List.getD_eq_getElem _ _ hi] at hgd
    rw [← hgd]
    exact List.getElem_mem hi

/-- The slice of every subgraph lists its vertices in strictly increasing
id order. -/
theorem disjoint_slice_sorted (g : Graph) (hwf : g.wellFormed) {k : Nat}
    (hk : k < disjointNum g) :
    ((find_disjoint_subgraphs g).subgraphs.getD k []).Pairwise
      (fun a b => a < b) := by
  rw [find_disjoint_subgraphs_slice g hwf hk]
  rw [List.pairwise_map]
  exact List.Pairwise.sublist (List.filter_sublist _)
    (disjointPairs_snd_pairwise g)

/-- C6: for every well-formed graph, the union of the vertex lists returned
by `find_disjoint_subgraphs` is exactly the set of vertices incident to at
least one edge (so edge-free vertices appear in no subgraph), no vertex
appears in two different subgraph lists, and no list repeats a vertex. -/
theorem find_disjoint_subgraphs_partition (g : Graph) (hwf : g.wellFormed) :
    (∀ v, (∃ l ∈ (find_disjoint_subgraphs g).subgraphs, v ∈ l) ↔
      g.incident v) ∧
    (∀ k k' v : Nat, v ∈ (find_disjoint_subgraphs g).subgraphs.getD k [] →
      v ∈ (find_disjoint_subgraphs g).subgraphs.getD k' [] → k = k') ∧
    (∀ l ∈ (find_disjoint_subgraphs g).subgraphs, l.Nodup) := by
  have hmemk : ∀ k v : Nat,
      v ∈ (find_disjoint_subgraphs g).subgraphs.getD k [] →
      k < disjointNum g ∧ (disjointVGraph g).getD v none = some k := by
    intro k v hv
    by_cases hk : k < disjointNum g
    · refine ⟨hk, ?_⟩
      rw [find_disjoint_subgraphs_slice g hwf hk, mem_slice_iff] at hv
      exact (mem_disjointPairs g).mp hv
    · rw [List.getD_eq_default _ _ (by
        rw [find_disjoint_subgraphs_length]; omega)] at hv
      exact absurd hv (List.not_mem_nil v)
  refine ⟨?_, ?_, ?_⟩
  · intro v
    constructor
    · rintro ⟨l, hl, hvl⟩
      obtain ⟨k, hk, heq⟩ := (mem_iff_getD _ ([] : List Nat) l).mp hl
      rw [← heq] at hvl
      obtain ⟨_, hsome⟩ := hmemk k v hvl
      have hne : (disjointVGraph g).getD v none ≠ none := by
        rw [hsome]; exact Option.noConfusion
      exact ((disjointVGraph_spec g hwf).1 v).mp hne
    · intro hinc
      have hne := ((disjointVGraph_spec g hwf).1 v).mpr hinc
      obtain ⟨k, hk⟩ := Option.ne_none_iff_exists'.mp hne
      have hklt : k < disjointNum g := (disjointVGraph_spec g hwf).2 v k hk
      refine ⟨(find_disjoint_subgraphs g).subgraphs.getD k [], ?_, ?_⟩
      · apply (mem_iff_getD _ ([] : List Nat) _).mpr
        exact ⟨k, by rw [find_disjoint_subgraphs_length]; exact hklt, rfl⟩
      · rw [find_disjoint_subgraphs_slice g hwf hklt, mem_slice_iff,
          mem_disjointPairs]
        exact hk
  · intro k k' v hv hv'
    obtain ⟨_, h1⟩ := hmemk k v hv
    obtain ⟨_, h2⟩ := hmemk k' v hv'
    rw [h1] at h2
    exact Option.some.inj h2
  · intro l hl
    obtain ⟨k, hk, heq⟩ := (mem_iff_getD _ ([] : List Nat) l).mp hl
    rw [find_disjoint_subgraphs_length] at hk
    rw [← heq]
    exact List.Pairwise.imp (fun h => Nat.ne_of_lt h)
      (disjoint_slice_sorted g hwf hk)

/-- Witness for the partition property at the two-component graph
`0 → 1`, `3 → 2`: vertex 2 lies in the subgraph list `[2, 3]`, hence is
incident to an edge. -/
theorem find_disjoint_subgraphs_partition_witness :
    Graph.incident ⟨[[1], [], [], [2]]⟩ 2 :=
  ((find_disjoint_subgraphs_partition ⟨[[1], [], [], [2]]⟩ (by decide)).1 2).mp
    ⟨[2, 3], by decide, by decide⟩

/-- C10: in the result of `find_disjoint_subgraphs`, every subgraph's
vertex list is sorted in strictly increasing vertex-id order (the scatter
pass visits vertices in ascending id order and appends each to its
subgraph's next write position). -/
theorem find_disjoint_subgraphs_sorted (g : Graph) (hwf : g.wellFormed) :
    ∀ l ∈ (find_disjoint_subgraphs g).subgraphs,
      l.Pairwise (fun a b => a < b) := by
  intro l hl
  obtain ⟨k, hk, heq⟩ := (mem_iff_getD _ ([] : List Nat) l).mp hl
  rw [find_disjoint_subgraphs_length] at hk
  rw [← heq]
  exact disjoint_slice_sorted g hwf hk

/-- Witness for the sortedness property at the one-component graph
`0 → 2`, `2 → 1`: its single subgraph list `[0, 1, 2]` is strictly
increasing. -/
theorem find_disjoint_subgraphs_sorted_witness :
    ([0, 1, 2] : List Nat).Pairwise (fun a b => a < b) :=
  find_disjoint_subgraphs_sorted ⟨[[2], [], [1]]⟩ (by decide) [0, 1, 2]
    (by decide)

/-- C7, corrected: crossing minimization in `create_proper_graph` performs
exactly one `min_crossings_up` sweep (layer pairs in increasing order)
FOLLOWED BY exactly one `min_crossings_down` sweep (layer pairs in
decreasing order), with no convergence check, stopping criterion or
iteration limit — the opposite composition order from the claimed
"one down-sweep then one up-sweep". -/
theorem crossing_minimization_sweep_order :
    ∀ (g : Graph) (order : List Nat),
      topo_sort_reverse g = Except.ok order → order ≠ [] →
      create_proper_graph g = Except.ok (some
        ((properLayerFold g order).1, properLayerVerts g order,
         properLayerEdges g order,
         minCrossingsDown (properLayerEdges g order)
           (minCrossingsUp (properLayerEdges g order)
             (properVPos0 g order)))) := by
  intro g order h1 h2
  unfold create_proper_graph
  rw [h1]
  cases order with
  | nil => exact absurd rfl h2
  | cons a l => rfl

/-- Witness: the sweep-order theorem applied to the concrete graph
`2 -> {0,1}`, `3 -> 1`, `4 -> {2,3}` with its computed reverse-topological
order. -/
theorem crossing_minimization_sweep_order_witness :
    create_proper_graph ⟨[[], [], [1, 0], [1], [2, 3]]⟩ = Except.ok (some
      ((properLayerFold ⟨[[], [], [1, 0], [1], [2, 3]]⟩ [1, 0, 2, 3, 4]).1,
       properLayerVerts ⟨[[], [], [1, 0], [1], [2, 3]]⟩ [1, 0, 2, 3, 4],
       properLayerEdges ⟨[[], [], [1, 0], [1], [2, 3]]⟩ [1, 0, 2, 3, 4],
       minCrossingsDown
         (properLayerEdges ⟨[[], [], [1, 0], [1], [2, 3]]⟩ [1, 0, 2, 3, 4])
         (minCrossingsUp
           (properLayerEdges ⟨[[], [], [1, 0], [1], [2, 3]]⟩ [1, 0, 2, 3, 4])
           (properVPos0 ⟨[[], [], [1, 0], [1], [2, 3]]⟩ [1, 0, 2, 3, 4])))) :=
  crossing_minimization_sweep_order ⟨[[], [], [1, 0], [1], [2, 3]]⟩
    [1, 0, 2, 3, 4] (by rfl) (by decide)

/-- Counterexample to the claimed sweep order: on the graph `2 -> {0,1}`,
`3 -> 1`, `4 -> {2,3}` (reverse-topological order `[1, 0, 2, 3, 4]`), the
claimed composition — one down-sweep first, then one up-sweep — produces a
`v_pos` table different from the one the code computes
(`properVPosFinal`, the down-after-up composition), so the order of the
two sweeps is material.  All barycenter runs on this graph have length 1
or 2, so the `f32` arithmetic of the source is exact and agrees with the
model. -/
theorem crossing_minimization_not_down_then_up :
    topo_sort_reverse ⟨[[], [], [1, 0], [1], [2, 3]]⟩ =
      Except.ok [1, 0, 2, 3, 4] ∧
    minCrossingsUp (properLayerEdges ⟨[[], [], [1, 0], [1], [2, 3]]⟩
        [1, 0, 2, 3, 4])
      (minCrossingsDown (properLayerEdges ⟨[[], [], [1, 0], [1], [2, 3]]⟩
          [1, 0, 2, 3, 4])
        (properVPos0 ⟨[[], [], [1, 0], [1], [2, 3]]⟩ [1, 0, 2, 3, 4])) ≠
    properVPosFinal ⟨[[], [], [1, 0], [1], [2, 3]]⟩ [1, 0, 2, 3, 4] :=
  ⟨by rfl, by decide⟩

/-- C8 is refuted by the graph `2 -> 1`, `2 -> 0`: the layer table is
`v_layer = [0, 0, 1]`, so vertices 0 and 1 form the lower layer of the
single layer pair `(L0, L1)` and vertex 2 its upper layer, and the initial
positions are `v_pos = [1, 0, 0]`.  The single `min_crossings_up`
layer-pair pass repositions the LOWER-layer vertices (vertex 0 moves from
position 1 to 0, vertex 1 from 0 to 1) while the upper-layer vertex 2
keeps its position — the opposite of the claim that the lower layer is
held fixed and only upper-layer vertices receive new positions.  (The
`layer_edges` tuples are stored as `(upper, lower)`, but `min_crossings_up`
destructures them as `(lower, upper)`, so the endpoint it moves is the
lower one.) -/
theorem min_crossings_up_moves_lower_layer :
    topo_sort_reverse ⟨[[], [], [1, 0]]⟩ = Except.ok [1, 0, 2] ∧
    (properLayerFold ⟨[[], [], [1, 0]]⟩ [1, 0, 2]).1 = [0, 0, 1] ∧
    properLayerEdges ⟨[[], [], [1, 0]]⟩ [1, 0, 2] = [[(2, 1), (2, 0)]] ∧
    properVPos0 ⟨[[], [], [1, 0]]⟩ [1, 0, 2] = [1, 0, 0] ∧
    minCrossingsUp (properLayerEdges ⟨[[], [], [1, 0]]⟩ [1, 0, 2])
      (properVPos0 ⟨[[], [], [1, 0]]⟩ [1, 0, 2]) = [0, 1, 0] :=
  ⟨by rfl, by decide, by decide, by decide, by decide⟩

/-- The first component of the trellis layer loop is exactly the verified
`layerFold` of `create_layer_map`. -/
theorem properLayerFold_pair (g : Graph) :
    ∀ (l : List Nat) (st : List Nat × List (Nat × Nat) × Nat),
      (l.foldl (properLayerStep g) st).1 = l.foldl (layerStep g) st.1 := by
  intro l
  induction l with
  | nil => intro st; rfl
  | cons f l ih =>
    intro st
    show (l.foldl (properLayerStep g) (properLayerStep g st f)).1 = _
    rw [ih]
    rfl

theorem properLayerFold_fst (g : Graph) (order : List Nat) :
    (properLayerFold g order).1 = layerFold g order :=
  properLayerFold_pair g order (List.replicate g.numVerts 0, [], 0)

/-- Every edge descends by at least one layer in the computed layer map
(the layer-assignment part of the C3 development, packaged for the
proper-graph construction). -/
theorem layerFold_edge_lt (g : Graph) (hwf : g.wellFormed)
    {order : List Nat} (hres : topo_sort_reverse g = .ok order) :
    ∀ f t, g.hasEdge f t →
      (layerFold g order).getD t 0 < (layerFold g order).getD f 0 := by
  obtain ⟨hnd, hord, hmem, hbound⟩ := topo_sort_reverse_ok g hwf hres
  have hgetD0 : ∀ v : Nat,
      (List.replicate g.numVerts (0 : Nat)).getD v 0 = 0 := by
    intro v
    rw [List.getD_eq_getElem?_getD, List.getElem?_replicate]
    split <;> rfl
  obtain ⟨hlen, hzero, heq⟩ := layerFold_invariant g hnd hbound hord order []
    (List.replicate g.numVerts 0) rfl (by simp)
    (fun v _ => hgetD0 v) (by simp)
  intro f t hedge
  have hfl : f ∈ order := (hmem f).mpr (hasEdge_incident_left hedge)
  show (layerFold g order).getD t 0 < (layerFold g order).getD f 0
  unfold layerFold
  rw [heq f hfl]
  exact layerValue_gt hedge

/-- Closed form of the chain loop: `n` iterations starting at `layer` push
the virtual vertices `nv, …, nv + n - 1` under the descending keys
`layer, layer - 1, …`, emit one edge per key linking the previous chain
vertex to the fresh one, and leave `prev_v` at the last allocated vertex
(`prev` itself when `n = 0`) and `next_virt_v` at `nv + n`. -/
theorem chainSteps_closed : ∀ (n layer prev nv : Nat),
    chainSteps n layer prev nv =
      ((List.range n).map (fun i => (layer - i, nv + i)),
       (List.range n).map (fun i =>
         (layer - i, ((if i = 0 then prev else nv + i - 1), nv + i))),
       (if n = 0 then prev else nv + n - 1),
       nv + n) := by
  intro n
  induction n with
  | zero =>
    intro layer prev nv
    simp [chainSteps]
  | succ n ih =>
    intro layer prev nv
    show ((layer, nv) :: (chainSteps n (layer - 1) nv (nv + 1)).1,
      (layer, (prev, nv)) :: (chainSteps n (layer - 1) nv (nv + 1)).2.1,
      (chainSteps n (layer - 1) nv (nv + 1)).2.2) = _
    rw [ih (layer - 1) nv (nv + 1)]
    have h1 : (layer, nv) ::
        (List.range n).map (fun i => (layer - 1 - i, nv + 1 + i)) =
        (List.range (n + 1)).map (fun i => (layer - i, nv + i)) := by
      rw [List.range_succ_eq_map, List.map_cons, List.map_map]
      refine congrArg₂ _ (by simp) (List.map_congr_left ?_)
      intro i _
      show (layer - 1 - i, nv + 1 + i) = (layer - (i + 1), nv + (i + 1))
      have e1 : layer - 1 - i = layer - (i + 1) := by omega
      have e2 : nv + 1 + i = nv + (i + 1) := by omega
      rw [e1, e2]
    have h2 : (layer, (prev, nv)) ::
        (List.range n).map (fun i =>
          (layer - 1 - i, ((if i = 0 then nv else nv + 1 + i - 1),
            nv + 1 + i))) =
        (List.range (n + 1)).map (fun i =>
          (layer - i, ((if i = 0 then prev else nv + i - 1), nv + i))) := by
      rw [List.range_succ_eq_map, List.map_cons, List.map_map]
      refine congrArg₂ _ (by simp) (List.map_congr_left ?_)
      intro i _
      show (layer - 1 - i, ((if i = 0 then nv else nv + 1 + i - 1),
          nv + 1 + i)) =
        (layer - (i + 1), ((if i + 1 = 0 then prev else nv + (i + 1) - 1),
          nv + (i + 1)))
      have e1 : layer - 1 - i = layer - (i + 1) := by omega
      have e2 : nv + 1 + i = nv + (i + 1) := by omega
      have e3 : (if i = 0 then nv else nv + 1 + i - 1) =
          (if i + 1 = 0 then prev else nv + (i + 1) - 1) := by
        rw [if_neg (Nat.succ_ne_zero i)]
        by_cases hi : i = 0
        · rw [if_pos hi]
          omega
        · rw [if_neg hi]
          omega
      rw [e3, e1, e2]
    have h3 : (if n = 0 then nv else nv + 1 + n - 1) =
        (if n + 1 = 0 then prev else nv + (n + 1) - 1) := by
      rw [if_neg (Nat.succ_ne_zero n)]
      by_cases hn : n = 0
      · rw [if_pos hn]
        omega
      · rw [if_neg hn]
        omega
    have h4 : nv + 1 + n = nv + (n + 1) := by omega
    rw [h1, h2, h3, h4]

/-- One step of the edge loop, with the chain loop replaced by its closed
form. -/
theorem properEdgePhase_cons (vl : List Nat) (e : Nat × Nat)
    (es : List (Nat × Nat)) (nv : Nat) :
    properEdgePhase vl (e :: es) nv =
      ((List.range (vl.getD e.1 0 - 1 - vl.getD e.2 0)).map
          (fun i => (vl.getD e.1 0 - 1 - i, nv + i)) ++
        (properEdgePhase vl es
          (nv + (vl.getD e.1 0 - 1 - vl.getD e.2 0))).1,
       ((List.range (vl.getD e.1 0 - 1 - vl.getD e.2 0)).map
          (fun i => (vl.getD e.1 0 - 1 - i,
            ((if i = 0 then e.1 else nv + i - 1), nv + i))) ++
        [(vl.getD e.2 0,
          ((if vl.getD e.1 0 - 1 - vl.getD e.2 0 = 0 then e.1
            else nv + (vl.getD e.1 0 - 1 - vl.getD e.2 0) - 1), e.2))]) ++
        (properEdgePhase vl es
          (nv + (vl.getD e.1 0 - 1 - vl.getD e.2 0))).2.1,
       (properEdgePhase vl es
         (nv + (vl.getD e.1 0 - 1 - vl.getD e.2 0))).2.2) := by
  show ((chainSteps (vl.getD e.1 0 - 1 - vl.getD e.2 0)
      (vl.getD e.1 0 - 1) e.1 nv).1 ++
    (properEdgePhase vl es (chainSteps (vl.getD e.1 0 - 1 - vl.getD e.2 0)
      (vl.getD e.1 0 - 1) e.1 nv).2.2.2).1,
    ((chainSteps (vl.getD e.1 0 - 1 - vl.getD e.2 0)
      (vl.getD e.1 0 - 1) e.1 nv).2.1 ++
      [(vl.getD e.2 0, ((chainSteps (vl.getD e.1 0 - 1 - vl.getD e.2 0)
        (vl.getD e.1 0 - 1) e.1 nv).2.2.1, e.2))]) ++
    (properEdgePhase vl es (chainSteps (vl.getD e.1 0 - 1 - vl.getD e.2 0)
      (vl.getD e.1 0 - 1) e.1 nv).2.2.2).2.1,
    (properEdgePhase vl es (chainSteps (vl.getD e.1 0 - 1 - vl.getD e.2 0)
      (vl.getD e.1 0 - 1) e.1 nv).2.2.2).2.2) = _
  rw [chainSteps_closed]

/-- The edge loop produces exactly the specified chains: the `layer_edges`
pushes are the concatenated `chainSpec` blocks, the `layer_verts` pushes
allocate the consecutive virtual ids `nv, nv + 1, …` in order, and the
allocation counter never decreases. -/
theorem properEdgePhase_closed (vl : List Nat) :
    ∀ (es : List (Nat × Nat)) (nv : Nat),
      (properEdgePhase vl es nv).2.1 = chainsSpec vl es nv ∧
      (properEdgePhase vl es nv).1.map Prod.snd =
        List.range' nv ((properEdgePhase vl es nv).2.2 - nv) ∧
      nv ≤ (properEdgePhase vl es nv).2.2 := by
  intro es
  induction es with
  | nil =>
    intro nv
    refine ⟨rfl, ?_, Nat.le_refl _⟩
    show ([] : List Nat) = List.range' nv (nv - nv)
    rw [Nat.sub_self]
    rfl
  | cons e es ih =>
    intro nv
    obtain ⟨ih1, ih2, ih3⟩ := ih (nv + (vl.getD e.1 0 - 1 - vl.getD e.2 0))
    rw [properEdgePhase_cons]
    refine ⟨?_, ?_, ?_⟩
    · show _ ++ _ = chainsSpec vl (e :: es) nv
      rw [show chainsSpec vl (e :: es) nv =
          chainSpec e.1 e.2 (vl.getD e.1 0) (vl.getD e.2 0) nv ++
            chainsSpec vl es
              (nv + (vl.getD e.1 0 - 1 - vl.getD e.2 0)) from rfl,
        ← ih1]
      rfl
    · rw [List.map_append, ih2, List.map_map]
      have hfst : (Prod.snd ∘ fun i =>
          ((vl.getD e.1 0 - 1 - i : Nat), nv + i)) = (nv + ·) := by
        funext i
        rfl
      rw [hfst, ← List.range'_eq_map_range]
      have happ := List.range'_append nv
        (vl.getD e.1 0 - 1 - vl.getD e.2 0)
        ((properEdgePhase vl es
          (nv + (vl.getD e.1 0 - 1 - vl.getD e.2 0))).2.2 -
          (nv + (vl.getD e.1 0 - 1 - vl.getD e.2 0))) 1
      rw [Nat.one_mul] at happ
      rw [happ]
      have harith : (properEdgePhase vl es
            (nv + (vl.getD e.1 0 - 1 - vl.getD e.2 0))).2.2 -
            (nv + (vl.getD e.1 0 - 1 - vl.getD e.2 0)) +
          (vl.getD e.1 0 - 1 - vl.getD e.2 0) =
          (properEdgePhase vl es
            (nv + (vl.getD e.1 0 - 1 - vl.getD e.2 0))).2.2 - nv := by
        omega
      rw [harith]
    · show nv ≤ (properEdgePhase vl es
        (nv + (vl.getD e.1 0 - 1 - vl.getD e.2 0))).2.2
      omega

theorem properAssigned_mono {g : Graph} {vl : List Nat}
    {vi vi' : List (Nat × Nat)} (hsub : ∀ x ∈ vi, x ∈ vi')
    {L v : Nat} (h : properAssigned g vl vi L v) :
    properAssigned g vl vi' L v :=
  Or.imp (fun h1 => h1) (fun h2 => hsub _ h2) h

/-- Every pair of one chain block connects a vertex assigned to layer
`L + 1` to a vertex assigned to layer `L`, where `L` is the key it is
pushed under: the original endpoints carry their `v_layer` entries and the
virtual vertices the layers they are pushed into `layer_verts` with. -/
theorem chainSpec_adjacent (g : Graph) (vl : List Nat)
    (vi : List (Nat × Nat)) (f t fl tl nv : Nat)
    (hf : f < g.numVerts) (ht : t < g.numVerts)
    (hvf : vl.getD f 0 = fl) (hvt : vl.getD t 0 = tl) (hlt : tl < fl)
    (hvi : ∀ i, i < fl - 1 - tl → (fl - 1 - i, nv + i) ∈ vi) :
    ∀ p ∈ chainSpec f t fl tl nv,
      properAssigned g vl vi (p.1 + 1) p.2.1 ∧
      properAssigned g vl vi p.1 p.2.2 := by
  intro p hp
  unfold chainSpec at hp
  rcases List.mem_append.mp hp with hchain | hclose
  · rw [List.mem_map] at hchain
    obtain ⟨i, hi, hpi⟩ := hchain
    rw [List.mem_range] at hi
    subst hpi
    constructor
    · show properAssigned g vl vi (fl - 1 - i + 1)
        (if i = 0 then f else nv + i - 1)
      by_cases hi0 : i = 0
      · rw [if_pos hi0]
        subst hi0
        exact Or.inl ⟨hf, by omega⟩
      · rw [if_neg hi0]
        have h1 : fl - 1 - (i - 1) = fl - 1 - i + 1 := by omega
        have h2 : nv + (i - 1) = nv + i - 1 := by omega
        have hm := hvi (i - 1) (by omega)
        rw [h1, h2] at hm
        exact Or.inr hm
    · show properAssigned g vl vi (fl - 1 - i) (nv + i)
      exact Or.inr (hvi i hi)
  · rw [List.mem_singleton] at hclose
    subst hclose
    constructor
    · show properAssigned g vl vi (tl + 1)
        (if fl - 1 - tl = 0 then f else nv + (fl - 1 - tl) - 1)
      by_cases hs : fl - 1 - tl = 0
      · rw [if_pos hs]
        exact Or.inl ⟨hf, by omega⟩
      · rw [if_neg hs]
        have h1 : fl - 1 - (fl - 1 - tl - 1) = tl + 1 := by omega
        have h2 : nv + (fl - 1 - tl - 1) = nv + (fl - 1 - tl) - 1 := by omega
        have hm := hvi (fl - 1 - tl - 1) (by omega)
        rw [h1, h2] at hm
        exact Or.inr hm
    · exact Or.inl ⟨ht, hvt⟩

/-- Layer adjacency for the whole edge loop: every `layer_edges` push
`(L, (from, to))` satisfies `layer from = L + 1` and `layer to = L`. -/
theorem properEdgePhase_adjacent (g : Graph) (vl : List Nat) :
    ∀ (es : List (Nat × Nat)) (nv : Nat),
      (∀ e ∈ es, e.1 < g.numVerts ∧ e.2 < g.numVerts ∧
        vl.getD e.2 0 < vl.getD e.1 0) →
      ∀ p ∈ (properEdgePhase vl es nv).2.1,
        properAssigned g vl (properEdgePhase vl es nv).1 (p.1 + 1) p.2.1 ∧
        properAssigned g vl (properEdgePhase vl es nv).1 p.1 p.2.2 := by
  intro es
  induction es with
  | nil =>
    intro nv _ p hp
    exact absurd hp (List.not_mem_nil p)
  | cons e es ih =>
    intro nv hdesc p hp
    obtain ⟨he1, he2, hlt⟩ := hdesc e (List.mem_cons_self _ _)
    rw [properEdgePhase_cons] at hp
    have hp' : p ∈ chainSpec e.1 e.2 (vl.getD e.1 0) (vl.getD e.2 0) nv ++
        (properEdgePhase vl es
          (nv + (vl.getD e.1 0 - 1 - vl.getD e.2 0))).2.1 := hp
    have hsub1 : ∀ x ∈ (List.range (vl.getD e.1 0 - 1 - vl.getD e.2 0)).map
        (fun i => (vl.getD e.1 0 - 1 - i, nv + i)),
        x ∈ (properEdgePhase vl (e :: es) nv).1 := by
      intro x hx
      rw [properEdgePhase_cons]
      exact List.mem_append_left _ hx
    have hsub2 : ∀ x ∈ (properEdgePhase vl es
        (nv + (vl.getD e.1 0 - 1 - vl.getD e.2 0))).1,
        x ∈ (properEdgePhase vl (e :: es) nv).1 := by
      intro x hx
      rw [properEdgePhase_cons]
      exact List.mem_append_right _ hx
    rcases List.mem_append.mp hp' with hpb | hpc
    · refine chainSpec_adjacent g vl _ e.1 e.2 _ _ nv he1 he2 rfl rfl hlt
        ?_ p hpb
      intro i hi
      exact hsub1 _ (List.mem_map.mpr ⟨i, List.mem_range.mpr hi, rfl⟩)
    · obtain ⟨ha, hb⟩ := ih (nv + (vl.getD e.1 0 - 1 - vl.getD e.2 0))
        (fun e' he' => hdesc e' (List.mem_cons_of_mem _ he')) p hpc
      exact ⟨properAssigned_mono hsub2 ha, properAssigned_mono hsub2 hb⟩

/-- C4: during proper-graph construction (with the layer table computed by
the phase-1 loop, which is exactly `layerFold`), the `layer_edges` pushes
are precisely the concatenation of one chain per original edge
(`chainsSpec`); one chain for an edge of layer span `s` consists of
exactly `s` edges (a span-1 edge is emitted unchanged as
`(to_layer, (from, to))`), threading through `s - 1` fresh virtual
vertices, one per intermediate layer; the virtual ids are allocated
consecutively starting at `num_verts` and increase monotonically across
the whole construction; and every pair `(from, to)` pushed into
`layer_edges` under key `L` joins a vertex assigned to layer `L + 1` to a
vertex assigned to layer `L`. -/
theorem create_proper_graph_chains (g : Graph) (hwf : g.wellFormed)
    (hacyc : ¬g.hasCycle) :
    ∀ order, topo_sort_reverse g = Except.ok order →
      ((properLayerFold g order).1 = layerFold g order) ∧
      ((properEdgePhase (layerFold g order) g.flatEdges g.numVerts).2.1 =
        chainsSpec (layerFold g order) g.flatEdges g.numVerts) ∧
      (∀ f t fl tl nv : Nat, tl < fl →
        (chainSpec f t fl tl nv).length = fl - tl ∧
        (fl - tl = 1 → chainSpec f t fl tl nv = [(tl, (f, t))])) ∧
      ((properEdgePhase (layerFold g order) g.flatEdges g.numVerts).1.map
          Prod.snd =
        List.range' g.numVerts
          ((properEdgePhase (layerFold g order) g.flatEdges
            g.numVerts).2.2 - g.numVerts)) ∧
      (∀ p ∈ (properEdgePhase (layerFold g order) g.flatEdges
          g.numVerts).2.1,
        properAssigned g (layerFold g order)
          (properEdgePhase (layerFold g order) g.flatEdges g.numVerts).1
          (p.1 + 1) p.2.1 ∧
        properAssigned g (layerFold g order)
          (properEdgePhase (layerFold g order) g.flatEdges g.numVerts).1
          p.1 p.2.2) := by
  intro order hres
  have hdesc : ∀ e ∈ g.flatEdges, e.1 < g.numVerts ∧ e.2 < g.numVerts ∧
      (layerFold g order).getD e.2 0 < (layerFold g order).getD e.1 0 := by
    rintro ⟨a, b⟩ he
    have hedge : g.hasEdge a b := mem_flatEdges.mp he
    exact ⟨lt_of_edgesFrom_ne_nil (List.ne_nil_of_mem hedge),
      edgesFrom_lt g hwf hedge, layerFold_edge_lt g hwf hres a b hedge⟩
  refine ⟨properLayerFold_fst g order,
    (properEdgePhase_closed (layerFold g order) g.flatEdges g.numVerts).1,
    ?_,
    (properEdgePhase_closed (layerFold g order) g.flatEdges
      g.numVerts).2.1,
    properEdgePhase_adjacent g (layerFold g order) g.flatEdges
      g.numVerts hdesc⟩
  intro f t fl tl nv hlt
  constructor
  · unfold chainSpec
    rw [List.length_append, List.length_map, List.length_range,
      List.length_singleton]
    omega
  · intro h1
    unfold chainSpec
    have hs : fl - 1 - tl = 0 := by omega
    rw [hs]
    simp

/-- Witness: the chain theorem at the graph `1 -> 0`, `2 -> 0`, `2 -> 1`
(layers 0, 1, 2), whose span-2 edge `2 -> 0` is replaced by the chain
`2 -> 3 -> 0` through the fresh virtual vertex 3. -/
theorem create_proper_graph_chains_witness :
    (properEdgePhase (layerFold ⟨[[], [0], [0, 1]]⟩ [0, 1, 2])
        (Graph.flatEdges ⟨[[], [0], [0, 1]]⟩)
        (Graph.numVerts ⟨[[], [0], [0, 1]]⟩)).2.1 =
      chainsSpec (layerFold ⟨[[], [0], [0, 1]]⟩ [0, 1, 2])
        (Graph.flatEdges ⟨[[], [0], [0, 1]]⟩)
        (Graph.numVerts ⟨[[], [0], [0, 1]]⟩) :=
  (create_proper_graph_chains ⟨[[], [0], [0, 1]]⟩ (by decide)
    (acyclic_of_cert _ (fun v => v) (by decide)) [0, 1, 2] (by rfl)).2.1

end Trellis
